import Mathlib

/-!
# Cache simulator: a shallow embedding of `cache_simulator.c`

The C program keeps the cache as one flat array of `block_t`, indexed by
`set * line + i`, and a statistics record `csim_stats_t`.  `eval_load` and
`eval_store` mutate both in place; here they take the array and the record
and return the updated pair.

Conventions of the embedding:

* C `int` and `long` values are mathematical integers (`Int`) kept inside
  the two's-complement range by `wrap_int` / `wrap_long` at every arithmetic
  step that can leave it (`max_order + 1`, `counter * 2`, `1 << 63`).
* Array indices (`set`, `line`, `i`, `cur_index`) are natural numbers.
  A read outside the array yields the all-zero block and a write outside the
  array is dropped; every theorem below that depends on array contents
  assumes indices in range.
* The fields of `csim_stats_t` are declared in `cachelab.h`; they are
  modelled as mathematical integers, so that a decrement of a zero counter
  would show up as a negative value.
-/

namespace CacheSim

/-! ## Machine integers -/

/-- Value of a C `int` expression after reduction to 32-bit two's complement. -/
def wrap_int (x : Int) : Int := (x + 2 ^ 31) % 2 ^ 32 - 2 ^ 31

/-- Value of a C `long` expression after reduction to 64-bit two's complement. -/
def wrap_long (x : Int) : Int := (x + 2 ^ 63) % 2 ^ 64 - 2 ^ 63

/-- The 64-bit pattern of a `long`, as an unsigned number. -/
def bits_long (x : Int) : Nat := (x % 2 ^ 64).toNat

/-- The C expression `x << n` on `long`. -/
def shl_long (x : Int) (n : Nat) : Int := wrap_long (x * 2 ^ n)

/-- The C expression `x >> n` on `long`: the arithmetic (sign-propagating) shift. -/
def shr_long (x : Int) (n : Nat) : Int := x / 2 ^ n

/-- The C expression `~x` on `long`. -/
def not_long (x : Int) : Int := -x - 1

/-- The C expression `x & y` on `long`, computed on the 64-bit patterns. -/
def and_long (x y : Int) : Int :=
  wrap_long (Int.ofNat (Nat.land (bits_long x) (bits_long y)))

/-! ## Data model -/

/-- The struct `block_t`: one cache line. -/
structure block_t where
  valid_bit : Int
  dirty_bit : Int
  tag : Int
  order : Int
deriving DecidableEq

/-- Modelled from the spec: the record `csim_stats_t` of `cachelab.h`, a header
that is not among the sources; the five counters are the ones `main`
initialises, and they are taken as mathematical integers. -/
structure csim_stats_t where
  hits : Int
  misses : Int
  evictions : Int
  dirty_bytes : Int
  dirty_evictions : Int
deriving DecidableEq

/-- A block as `calloc` delivers it: every field zero. -/
def zero_block : block_t := ⟨0, 0, 0, 0⟩

/-- The read `b_set[i]`. -/
def rd (b_set : List block_t) (i : Nat) : block_t := b_set.getD i zero_block

/-- The loop shape `for (i = 0; i < line; i++) if (p i) { ...; return; }`:
the first index below `line` at which the test succeeds, if any. -/
def first_index (line : Nat) (p : Nat → Bool) : Option Nat :=
  (List.range line).find? p

/-- The first loop of `eval_load` and of `eval_store`: `(min_order, max_order)` over
the lines of the set, both started at the order of the set's line 0. -/
def order_bounds (set line : Nat) (b_set : List block_t) : Int × Int :=
  (List.range line).foldl
    (fun (mm : Int × Int) (i : Nat) =>
      ((if (rd b_set (set * line + i)).order < mm.1
          then (rd b_set (set * line + i)).order else mm.1),
       (if (rd b_set (set * line + i)).order > mm.2
          then (rd b_set (set * line + i)).order else mm.2)))
    ((rd b_set (set * line)).order, (rd b_set (set * line)).order)

/-! ## `eval_load` and `eval_store` -/

/-- The function `eval_load`. -/
def eval_load (tag_num : Int) (set line : Nat) (b_set : List block_t)
    (stat : csim_stats_t) : List block_t × csim_stats_t :=
  let min_order := (order_bounds set line b_set).1
  let max_order := (order_bounds set line b_set).2
  match first_index line (fun i =>
      decide ((rd b_set (set * line + i)).tag = tag_num) &&
      decide ((rd b_set (set * line + i)).valid_bit = 1)) with
  | some i =>
    (b_set.set (set * line + i)
        { rd b_set (set * line + i) with order := wrap_int (max_order + 1) },
      { stat with hits := stat.hits + 1 })
  | none =>
    let stat1 : csim_stats_t := { stat with misses := stat.misses + 1 }
    match first_index line (fun i =>
        decide ((rd b_set (set * line + i)).valid_bit = 0)) with
    | some i =>
      (b_set.set (set * line + i)
          { rd b_set (set * line + i) with
            tag := tag_num, valid_bit := 1, order := wrap_int (max_order + 1) },
        stat1)
    | none =>
      let stat2 : csim_stats_t := { stat1 with evictions := stat1.evictions + 1 }
      match first_index line (fun i =>
          decide ((rd b_set (set * line + i)).order = min_order)) with
      | some i =>
        if (rd b_set (set * line + i)).dirty_bit = 1 then
          (b_set.set (set * line + i)
              { rd b_set (set * line + i) with
                tag := tag_num, order := wrap_int (max_order + 1), dirty_bit := 0 },
            { stat2 with
              dirty_evictions := stat2.dirty_evictions + 1,
              dirty_bytes := stat2.dirty_bytes - 1 })
        else
          (b_set.set (set * line + i)
              { rd b_set (set * line + i) with
                tag := tag_num, order := wrap_int (max_order + 1) },
            stat2)
      | none => (b_set, stat2)

/-- The function `eval_store`. -/
def eval_store (tag_num : Int) (set line : Nat) (b_set : List block_t)
    (stat : csim_stats_t) : List block_t × csim_stats_t :=
  let min_order := (order_bounds set line b_set).1
  let max_order := (order_bounds set line b_set).2
  match first_index line (fun i =>
      decide ((rd b_set (set * line + i)).valid_bit = 1) &&
      decide ((rd b_set (set * line + i)).tag = tag_num)) with
  | some i =>
    if (rd b_set (set * line + i)).dirty_bit = 0 then
      (b_set.set (set * line + i)
          { rd b_set (set * line + i) with
            order := wrap_int (max_order + 1), dirty_bit := 1 },
        { stat with hits := stat.hits + 1, dirty_bytes := stat.dirty_bytes + 1 })
    else
      (b_set.set (set * line + i)
          { rd b_set (set * line + i) with order := wrap_int (max_order + 1) },
        { stat with hits := stat.hits + 1 })
  | none =>
    let stat1 : csim_stats_t := { stat with misses := stat.misses + 1 }
    match first_index line (fun i =>
        decide ((rd b_set (set * line + i)).valid_bit = 0)) with
    | some i =>
      (b_set.set (set * line + i)
          { rd b_set (set * line + i) with
            valid_bit := 1, tag := tag_num, dirty_bit := 1,
            order := wrap_int (max_order + 1) },
        { stat1 with dirty_bytes := stat1.dirty_bytes + 1 })
    | none =>
      let stat2 : csim_stats_t := { stat1 with evictions := stat1.evictions + 1 }
      match first_index line (fun i =>
          decide ((rd b_set (set * line + i)).order = min_order)) with
      | some i =>
        let stat3 : csim_stats_t := { stat2 with dirty_bytes := stat2.dirty_bytes + 1 }
        if (rd b_set (set * line + i)).dirty_bit = 1 then
          (b_set.set (set * line + i)
              { rd b_set (set * line + i) with
                tag := tag_num, order := wrap_int (max_order + 1) },
            { stat3 with
              dirty_evictions := stat3.dirty_evictions + 1,
              dirty_bytes := stat3.dirty_bytes - 1 })
        else
          (b_set.set (set * line + i)
              { rd b_set (set * line + i) with
                tag := tag_num, order := wrap_int (max_order + 1), dirty_bit := 1 },
            stat3)
      | none => (b_set, stat2)

/-! ## The driver: initialisation, replay, decoder -/

/-- One decoded trace entry, as `main` hands it to the cache: the operation
(`true` for `L`, `false` for a store), the tag and the set index. -/
structure access where
  is_load : Bool
  tag : Int
  set : Nat
deriving DecidableEq

/-- The dispatch at the end of the body of the trace loop in `main`. -/
def step (line : Nat) (c : List block_t × csim_stats_t) (a : access) :
    List block_t × csim_stats_t :=
  if a.is_load then eval_load a.tag a.set line c.1 c.2
  else eval_store a.tag a.set line c.1 c.2

/-- The statistics record as `main` initialises it: every counter zero. -/
def init_stat : csim_stats_t := ⟨0, 0, 0, 0, 0⟩

/-- The array as `main` initialises it: `set_number * line_size` blocks from `calloc`,
whose `order`, `valid_bit` and `dirty_bit` the two nested loops set to 0 again. -/
def init_cache (set_number line_size : Nat) : List block_t :=
  List.replicate (set_number * line_size) zero_block

/-- The freshly initialised simulator state. -/
def init_state (set_number line_size : Nat) : List block_t × csim_stats_t :=
  (init_cache set_number line_size, init_stat)

/-- Replaying a sequence of decoded accesses, in order, from a given state. -/
def replay (line : Nat) (c : List block_t × csim_stats_t) (trace : List access) :
    List block_t × csim_stats_t :=
  trace.foldl (step line) c

/-- The function `set_power`: `counter` doubled `set_size` times in `int` arithmetic. -/
def set_power (set_size : Int) : Int :=
  (fun counter => wrap_int (counter * 2))^[set_size.toNat] 1

/-- The constant `SHIFT`. -/
def SHIFT : Nat := 63

/-- The decoder of `main`: the value of `set_num` for a given `address`. -/
def main_set_num (set_size block_size : Nat) (address : Int) : Int :=
  let set_at_right := shr_long address block_size
  let set_mask := not_long (shr_long (shl_long 1 SHIFT) (SHIFT - set_size))
  and_long set_mask set_at_right

/-- The decoder of `main`: the value of `tag_num` for a given `address`. -/
def main_tag_num (set_size block_size : Nat) (address : Int) : Int :=
  let set_at_right := shr_long address block_size
  let tag_at_right := shr_long set_at_right set_size
  let tag_mask := not_long (shr_long (shl_long 1 SHIFT) (set_size + block_size))
  and_long tag_mask tag_at_right

/-- One line of the trace file as `fscanf(" %c %lx, %d")` reads it; `address` is
the hexadecimal number read, below `2 ^ 64`, before it is stored in a `long`. -/
structure trace_line where
  access_type : Char
  address : Nat
  size : Int
deriving DecidableEq

/-- The body of the trace loop of `main`: decode, then `eval_load` or `eval_store`. -/
def main_step (set_size line_size block_size : Nat)
    (c : List block_t × csim_stats_t) (r : trace_line) : List block_t × csim_stats_t :=
  let address := wrap_long r.address
  let set_num := main_set_num set_size block_size address
  let tag_num := main_tag_num set_size block_size address
  if r.access_type = 'L' then eval_load tag_num set_num.toNat line_size c.1 c.2
  else eval_store tag_num set_num.toNat line_size c.1 c.2

/-- The function `main` from the allocation of the array to the record handed to
`printSummary`: the geometry `s`, `E`, `b` and the trace lines are its inputs. -/
def main_stats (set_size line_size block_size : Nat) (trace : List trace_line) :
    csim_stats_t :=
  let set_number := set_power set_size
  let byte_number := set_power block_size
  let array_size := bits_long (wrap_long (set_number * line_size))
  let c := trace.foldl (main_step set_size line_size block_size)
    (List.replicate array_size zero_block, init_stat)
  { c.2 with
    dirty_bytes := c.2.dirty_bytes * (byte_number % 2 ^ 32),
    dirty_evictions := c.2.dirty_evictions * (byte_number % 2 ^ 32) }

/-- The array and the statistics record at the end of the trace loop of `main`, before
`dirty_bytes` and `dirty_evictions` are scaled. -/
def main_run (set_size line_size block_size : Nat) (trace : List trace_line) :
    List block_t × csim_stats_t :=
  trace.foldl (main_step set_size line_size block_size)
    (List.replicate (bits_long (wrap_long (set_power set_size * line_size))) zero_block,
      init_stat)

/-! ## The three outcomes of an access, line by line

The touched line and the statistics record after a hit, after a fill of an
invalid line and after the reuse of a victim line, for a load (`is_load`)
and for a store.  `step_cases` below shows that `eval_load` and `eval_store`
compute exactly these. -/

/-- The line after a hit on it; `M` is `max_order`. -/
def hit_block (is_load : Bool) (M : Int) (x : block_t) : block_t :=
  { x with
    order := wrap_int (M + 1),
    dirty_bit := if is_load then x.dirty_bit else if x.dirty_bit = 0 then 1 else x.dirty_bit }

/-- The statistics after a hit on line `x`. -/
def hit_stat (is_load : Bool) (x : block_t) (stat : csim_stats_t) : csim_stats_t :=
  { stat with
    hits := stat.hits + 1,
    dirty_bytes :=
      if is_load then stat.dirty_bytes
      else if x.dirty_bit = 0 then stat.dirty_bytes + 1 else stat.dirty_bytes }

/-- The invalid line `x` after it is filled with tag `t`. -/
def fill_block (is_load : Bool) (t M : Int) (x : block_t) : block_t :=
  { x with
    tag := t, valid_bit := 1, order := wrap_int (M + 1),
    dirty_bit := if is_load then x.dirty_bit else 1 }

/-- The statistics after a miss that fills an invalid line. -/
def fill_stat (is_load : Bool) (stat : csim_stats_t) : csim_stats_t :=
  { stat with
    misses := stat.misses + 1,
    dirty_bytes := if is_load then stat.dirty_bytes else stat.dirty_bytes + 1 }

/-- The victim line `x` after it is overwritten with tag `t`. -/
def evict_block (is_load : Bool) (t M : Int) (x : block_t) : block_t :=
  { x with
    tag := t, order := wrap_int (M + 1),
    dirty_bit := if is_load then (if x.dirty_bit = 1 then 0 else x.dirty_bit) else 1 }

/-- The statistics after a miss that overwrites the victim line `x`. -/
def evict_stat (is_load : Bool) (x : block_t) (stat : csim_stats_t) : csim_stats_t :=
  { stat with
    misses := stat.misses + 1,
    evictions := stat.evictions + 1,
    dirty_evictions :=
      if x.dirty_bit = 1 then stat.dirty_evictions + 1 else stat.dirty_evictions,
    dirty_bytes :=
      if is_load then (if x.dirty_bit = 1 then stat.dirty_bytes - 1 else stat.dirty_bytes)
      else (if x.dirty_bit = 1 then stat.dirty_bytes + 1 - 1 else stat.dirty_bytes + 1) }

/-! ## Observable outcomes and the reference LRU model -/

/-- What one access does, as seen from outside: a hit, a miss that fills a free line, or a
miss that overwrites a line (with the tag that line held, when a line was overwritten). -/
inductive outcome where
  | hit : outcome
  | miss_fill : outcome
  | miss_evict : Option Int → outcome
deriving DecidableEq

/-- The outcome of one call, read off the state before and after it: a hit when `hits`
moved, otherwise a miss; a miss is an eviction when `evictions` moved, and the evicted
tag is the old tag of the first line of the set whose tag was overwritten. -/
def observe (set line : Nat) (pre post : List block_t × csim_stats_t) : outcome :=
  if post.2.hits ≠ pre.2.hits then outcome.hit
  else if post.2.evictions = pre.2.evictions then outcome.miss_fill
  else outcome.miss_evict
    ((first_index line (fun i =>
        decide ((rd post.1 (set * line + i)).tag ≠ (rd pre.1 (set * line + i)).tag))).map
      (fun i => (rd pre.1 (set * line + i)).tag))

/-- The outcomes of the accesses of a trace replayed from state `c`, one per access. -/
def outcomes (line : Nat) : List block_t × csim_stats_t → List access → List outcome
  | _, [] => []
  | c, a :: rest => observe a.set line c (step line c a) :: outcomes line (step line c a) rest

/-- Reference LRU set, following the glossary of the specification: a list of at most `E`
tags, the most recently hit or filled first.  A tag in the list is moved to the
front (hit); a new tag is put in front, after the last tag is dropped when the list is
full (eviction of the least recently touched tag). -/
def lru_access (E : Nat) (l : List Int) (t : Int) : List Int × outcome :=
  if t ∈ l then (t :: l.erase t, outcome.hit)
  else if l.length < E then (t :: l, outcome.miss_fill)
  else (t :: l.dropLast, outcome.miss_evict l.getLast?)

/-- The reference model on a whole cache: one LRU list per set index. -/
def lru_step (E : Nat) (r : Nat → List Int) (a : access) : (Nat → List Int) × outcome :=
  (Function.update r a.set (lru_access E (r a.set) a.tag).1, (lru_access E (r a.set) a.tag).2)

/-- The outcomes the reference model gives for a trace, one per access. -/
def lru_outcomes (E : Nat) : (Nat → List Int) → List access → List outcome
  | _, [] => []
  | r, a :: rest => (lru_step E r a).2 :: lru_outcomes E (lru_step E r a).1 rest

/-- The reference model before the first access: every set empty. -/
def lru_init : Nat → List Int := fun _ => []

/-! ## Invariants of the reachable states -/

/-- The number of lines of the whole array whose `dirty_bit` is 1. -/
def dirty_count (b_set : List block_t) : Nat :=
  b_set.countP (fun x => decide (x.dirty_bit = 1))

/-- The facts about a state that hold after any number of accesses, whatever the
recency stamps are: the array keeps its size, `valid_bit` and `dirty_bit` are 0 or 1,
an invalid line is clean, the valid lines of a set hold distinct tags, and
`dirty_bytes` counts the dirty lines. -/
structure base_inv (S E : Nat) (c : List block_t × csim_stats_t) : Prop where
  len : c.1.length = S * E
  bits : ∀ j, j < S * E →
    ((rd c.1 j).valid_bit = 0 ∨ (rd c.1 j).valid_bit = 1) ∧
    ((rd c.1 j).dirty_bit = 0 ∨ (rd c.1 j).dirty_bit = 1) ∧
    ((rd c.1 j).valid_bit = 0 → (rd c.1 j).dirty_bit = 0)
  tags : ∀ k i j, k < S → i < E → j < E → i ≠ j →
    (rd c.1 (k * E + i)).valid_bit = 1 → (rd c.1 (k * E + j)).valid_bit = 1 →
    (rd c.1 (k * E + i)).tag ≠ (rd c.1 (k * E + j)).tag
  dirty : c.2.dirty_bytes = (dirty_count c.1 : Int)

/-- The state of the reference model after a trace. -/
def lru_replay (E : Nat) (r : Nat → List Int) (trace : List access) : Nat → List Int :=
  trace.foldl (fun r a => (lru_step E r a).1) r

/-- A trace of `2 ^ 31 + 1` loads on set 0 of a two-line cache: tags 0 and 1, then tag 0
again `2 ^ 31 - 2` times, then tag 2.  The last load of tag 0 is the one whose stamp
`max_order + 1` leaves the range of `int`. -/
def overflow_trace : List access :=
  ([⟨true, 0, 0⟩, ⟨true, 1, 0⟩, ⟨true, 0, 0⟩] ++
    (List.replicate 2147483644 ⟨true, 0, 0⟩ ++ [⟨true, 0, 0⟩])) ++ [⟨true, 2, 0⟩]

/-- The link between the lines of one set (`f i` is line `i`, `i < E`) and the reference
LRU list `l` of that set, after at most `n` accesses: the list holds exactly the tags of
the valid lines, the valid lines are the first `l.length` ones, and a tag stands before
another in `l` exactly when its line carries the larger `order`. -/
structure set_rel (E : Nat) (n : Int) (f : Nat → block_t) (l : List Int) : Prop where
  valid01 : ∀ i, i < E → (f i).valid_bit = 0 ∨ (f i).valid_bit = 1
  ord_lo : ∀ i, i < E → 0 ≤ (f i).order
  ord_hi : ∀ i, i < E → (f i).order ≤ n
  tags : ∀ i j, i < E → j < E → i ≠ j → (f i).valid_bit = 1 → (f j).valid_bit = 1 →
    (f i).tag ≠ (f j).tag
  mem : ∀ t, t ∈ l ↔ ∃ i, i < E ∧ (f i).valid_bit = 1 ∧ (f i).tag = t
  len : ∀ i, i < E → ((f i).valid_bit = 1 ↔ i < l.length)
  nodup : l.Nodup
  sorted : l.Pairwise (fun t u => ∀ i j, i < E → j < E →
    (f i).valid_bit = 1 → (f i).tag = t → (f j).valid_bit = 1 → (f j).tag = u →
    (f j).order < (f i).order)

/-- The simulation relation between the array of the simulator and the reference model,
set by set; `cnt k` is the number of accesses set `k` has received.  The array has `S * E`
blocks, and every set with fewer than `2 ^ 31` accesses is linked to its LRU list by
`set_rel`. -/
structure lru_inv (S E : Nat) (cnt : Nat → Int) (b : List block_t) (r : Nat → List Int) :
    Prop where
  len : b.length = S * E
  sets : ∀ k, k < S → cnt k < 2 ^ 31 → set_rel E (cnt k) (fun i => rd b (k * E + i)) (r k)

/-- A trace of `2 ^ 31` loads on set 0 of a two-line cache: tags 0 and 1, then tag 0 again
`2 ^ 31 - 2` times.  Its last load is the first whose stamp `max_order + 1` leaves the
range of `int`. -/
def stamp_wrap_trace : List access :=
  [⟨true, 0, 0⟩, ⟨true, 1, 0⟩, ⟨true, 0, 0⟩] ++
    (List.replicate 2147483644 ⟨true, 0, 0⟩ ++ [⟨true, 0, 0⟩])

/-- A trace of `2 ^ 31 + 1` loads on set 0 of a two-line cache: tags 0 and 1, then tag 0
again `2 ^ 31 - 3` times, then tag 1 and tag 0 once more.  The last two loads both get
the stamp that has left the range of `int`. -/
def stamp_tie_trace : List access :=
  ([⟨true, 0, 0⟩, ⟨true, 1, 0⟩, ⟨true, 0, 0⟩] ++
    (List.replicate 2147483644 ⟨true, 0, 0⟩ ++ [⟨true, 1, 0⟩])) ++ [⟨true, 0, 0⟩]

/-- Two simulator states agree on everything but the dirty bookkeeping: same array size,
same `valid_bit`, `tag` and `order` in every block, same `hits`, `misses` and `evictions`. -/
structure same_skeleton (c c' : List block_t × csim_stats_t) : Prop where
  len : c.1.length = c'.1.length
  valid : ∀ j, (rd c.1 j).valid_bit = (rd c'.1 j).valid_bit
  tag : ∀ j, (rd c.1 j).tag = (rd c'.1 j).tag
  order : ∀ j, (rd c.1 j).order = (rd c'.1 j).order
  hits : c.2.hits = c'.2.hits
  misses : c.2.misses = c'.2.misses
  evictions : c.2.evictions = c'.2.evictions

/-- The number of accesses of a trace that address set `k`. -/
def accesses_to (k : Nat) (trace : List access) : Nat :=
  trace.countP (fun a => decide (a.set = k))

/-- The recency stamps of one set (`f i` is line `i`, `i < E`) after `n` accesses to that
set, none of which has left the range of `int`: every order lies in `[0, n]`, an invalid
line has order 0, a valid line has order at least 1, and the valid lines carry distinct
orders. -/
structure set_stamps (E : Nat) (n : Int) (f : Nat → block_t) : Prop where
  lo : ∀ i, i < E → 0 ≤ (f i).order
  hi : ∀ i, i < E → (f i).order ≤ n
  invalid : ∀ i, i < E → (f i).valid_bit = 0 → (f i).order = 0
  valid : ∀ i, i < E → (f i).valid_bit = 1 → 1 ≤ (f i).order
  distinct : ∀ i j, i < E → j < E → i ≠ j → (f i).valid_bit = 1 → (f j).valid_bit = 1 →
    (f i).order ≠ (f j).order

/-- What is left of `set_stamps` once a stamp may have wrapped around: an invalid line has
order 0, a valid line has an order other than 0, and the valid lines carry distinct
orders. -/
structure set_stamps_weak (E : Nat) (f : Nat → block_t) : Prop where
  invalid : ∀ i, i < E → (f i).valid_bit = 0 → (f i).order = 0
  valid : ∀ i, i < E → (f i).valid_bit = 1 → (f i).order ≠ 0
  distinct : ∀ i j, i < E → j < E → i ≠ j → (f i).valid_bit = 1 → (f j).valid_bit = 1 →
    (f i).order ≠ (f j).order

/-- The stamps of a whole array, set by set; `cnt k` is the number of accesses set `k` has
received.  A set with fewer than `2 ^ 31` accesses satisfies `set_stamps`, a set with
exactly `2 ^ 31` accesses satisfies `set_stamps_weak`. -/
structure stamps_ok (S E : Nat) (cnt : Nat → Int) (b : List block_t) : Prop where
  len : b.length = S * E
  below : ∀ k, k < S → cnt k < 2 ^ 31 → set_stamps E (cnt k) (fun i => rd b (k * E + i))
  at_limit : ∀ k, k < S → cnt k = 2 ^ 31 → set_stamps_weak E (fun i => rd b (k * E + i))

/-! ## Loop lemmas -/

theorem first_index_none {n : Nat} {p : Nat → Bool} :
    first_index n p = none ↔ ∀ i, i < n → p i = false := by
  unfold first_index
  simp [List.find?_eq_none]

theorem first_index_some {n : Nat} {p : Nat → Bool} {i : Nat}
    (h : first_index n p = some i) :
    i < n ∧ p i = true ∧ ∀ j, j < i → p j = false := by
  induction n with
  | zero => simp [first_index] at h
  | succ n ih =>
    unfold first_index at h
    rw [List.range_succ, List.find?_append] at h
    cases hn : first_index n p with
    | some k =>
      have hk : List.find? p (List.range n) = some k := hn
      rw [hk] at h
      simp at h
      subst h
      obtain ⟨h1, h2, h3⟩ := ih hn
      exact ⟨by omega, h2, h3⟩
    | none =>
      have hk : List.find? p (List.range n) = none := hn
      rw [hk] at h
      simp at h
      obtain ⟨h1, h2⟩ := h
      subst h2
      exact ⟨by omega, h1, first_index_none.mp hn⟩

theorem first_index_exists {n : Nat} {p : Nat → Bool} {i : Nat} (hi : i < n)
    (hp : p i = true) : ∃ k, first_index n p = some k := by
  cases h : first_index n p with
  | some k => exact ⟨k, rfl⟩
  | none =>
    have := first_index_none.mp h i hi
    simp [hp] at this

/-- The running minimum and maximum of the scan loop after `n` iterations. -/
theorem scan_bounds (o : Nat → Int) (o0 : Int) (n : Nat) :
    let mm := (List.range n).foldl
      (fun (mm : Int × Int) (i : Nat) =>
        ((if o i < mm.1 then o i else mm.1), (if o i > mm.2 then o i else mm.2)))
      (o0, o0)
    mm.1 ≤ o0 ∧ o0 ≤ mm.2 ∧ (∀ i, i < n → mm.1 ≤ o i ∧ o i ≤ mm.2) ∧
      (mm.1 = o0 ∨ ∃ i, i < n ∧ mm.1 = o i) ∧ (mm.2 = o0 ∨ ∃ i, i < n ∧ mm.2 = o i) := by
  induction n with
  | zero => simp
  | succ n ih =>
    simp only [List.range_succ, List.foldl_append, List.foldl_cons, List.foldl_nil]
    simp only at ih
    generalize (List.range n).foldl
      (fun (mm : Int × Int) (i : Nat) =>
        ((if o i < mm.1 then o i else mm.1), (if o i > mm.2 then o i else mm.2)))
      (o0, o0) = mm at ih ⊢
    obtain ⟨h1, h2, h3, h4, h5⟩ := ih
    refine ⟨?_, ?_, ?_, ?_, ?_⟩
    · split <;> omega
    · split <;> omega
    · intro i hi
      rcases Nat.lt_succ_iff_lt_or_eq.mp hi with h | h
      · have := h3 i h
        constructor
        · split <;> omega
        · split <;> omega
      · subst h
        constructor
        · split <;> omega
        · split <;> omega
    · split
      · exact Or.inr ⟨n, by omega, rfl⟩
      · rcases h4 with h | ⟨i, hi, h⟩
        · exact Or.inl h
        · exact Or.inr ⟨i, by omega, h⟩
    · split
      · exact Or.inr ⟨n, by omega, rfl⟩
      · rcases h5 with h | ⟨i, hi, h⟩
        · exact Or.inl h
        · exact Or.inr ⟨i, by omega, h⟩

/-- With at least one line, `min_order` is a lower bound attained in the set and
`max_order` an upper bound attained in the set. -/
theorem order_bounds_spec (set line : Nat) (b_set : List block_t) (hline : 1 ≤ line) :
    (∀ i, i < line → (order_bounds set line b_set).1 ≤ (rd b_set (set * line + i)).order ∧
        (rd b_set (set * line + i)).order ≤ (order_bounds set line b_set).2) ∧
    (∃ i, i < line ∧ (order_bounds set line b_set).1 = (rd b_set (set * line + i)).order) ∧
    (∃ i, i < line ∧ (order_bounds set line b_set).2 = (rd b_set (set * line + i)).order) := by
  have h := scan_bounds (fun i => (rd b_set (set * line + i)).order)
    (rd b_set (set * line)).order line
  simp only at h
  obtain ⟨_, _, h3, h4, h5⟩ := h
  refine ⟨h3, ?_, ?_⟩
  · rcases h4 with h | h
    · exact ⟨0, by omega, by simpa using h⟩
    · exact h
  · rcases h5 with h | h
    · exact ⟨0, by omega, by simpa using h⟩
    · exact h

/-! ## Case analysis of one access -/

/-- Every call of `eval_load` / `eval_store` takes exactly one of four paths: a hit on the
first valid line holding the tag; a fill of the first invalid line; the reuse of the first
line whose order is `min_order`; or (only when no line has that order) nothing but the
two counter increments. -/
theorem step_cases (line : Nat) (b : List block_t) (st : csim_stats_t) (a : access) :
    (∃ i, i < line ∧
        ((rd b (a.set * line + i)).valid_bit = 1 ∧ (rd b (a.set * line + i)).tag = a.tag) ∧
        (∀ j, j < i →
          ¬ ((rd b (a.set * line + j)).valid_bit = 1 ∧ (rd b (a.set * line + j)).tag = a.tag)) ∧
        step line (b, st) a =
          (b.set (a.set * line + i)
            (hit_block a.is_load (order_bounds a.set line b).2 (rd b (a.set * line + i))),
           hit_stat a.is_load (rd b (a.set * line + i)) st)) ∨
    ((∀ j, j < line →
        ¬ ((rd b (a.set * line + j)).valid_bit = 1 ∧ (rd b (a.set * line + j)).tag = a.tag)) ∧
      ∃ i, i < line ∧ (rd b (a.set * line + i)).valid_bit = 0 ∧
        (∀ j, j < i → (rd b (a.set * line + j)).valid_bit ≠ 0) ∧
        step line (b, st) a =
          (b.set (a.set * line + i)
            (fill_block a.is_load a.tag (order_bounds a.set line b).2 (rd b (a.set * line + i))),
           fill_stat a.is_load st)) ∨
    ((∀ j, j < line →
        ¬ ((rd b (a.set * line + j)).valid_bit = 1 ∧ (rd b (a.set * line + j)).tag = a.tag)) ∧
      (∀ j, j < line → (rd b (a.set * line + j)).valid_bit ≠ 0) ∧
      ∃ i, i < line ∧ (rd b (a.set * line + i)).order = (order_bounds a.set line b).1 ∧
        (∀ j, j < i → (rd b (a.set * line + j)).order ≠ (order_bounds a.set line b).1) ∧
        step line (b, st) a =
          (b.set (a.set * line + i)
            (evict_block a.is_load a.tag (order_bounds a.set line b).2 (rd b (a.set * line + i))),
           evict_stat a.is_load (rd b (a.set * line + i)) st)) ∨
    ((∀ j, j < line →
        ¬ ((rd b (a.set * line + j)).valid_bit = 1 ∧ (rd b (a.set * line + j)).tag = a.tag)) ∧
      (∀ j, j < line → (rd b (a.set * line + j)).valid_bit ≠ 0) ∧
      (∀ j, j < line → (rd b (a.set * line + j)).order ≠ (order_bounds a.set line b).1) ∧
      step line (b, st) a =
        (b, { st with misses := st.misses + 1, evictions := st.evictions + 1 })) := by
  obtain ⟨is_load, t, k⟩ := a
  cases is_load
  · -- store
    simp only [step, Bool.false_eq_true, if_false]
    unfold eval_store
    simp only
    cases h1 : first_index line (fun i =>
        decide ((rd b (k * line + i)).valid_bit = 1) && decide ((rd b (k * line + i)).tag = t)) with
    | some i =>
      left
      obtain ⟨hi, hp, hlt⟩ := first_index_some h1
      simp only [Bool.and_eq_true, decide_eq_true_eq] at hp
      refine ⟨i, hi, hp, ?_, ?_⟩
      · intro j hj
        have := hlt j hj
        simpa using this
      · simp only [hit_block, hit_stat, Bool.false_eq_true, if_false]
        split <;> rfl
    | none =>
      right
      have hno := first_index_none.mp h1
      have hno2 : ∀ j, j < line →
          ¬ ((rd b (k * line + j)).valid_bit = 1 ∧ (rd b (k * line + j)).tag = t) := by
        intro j hj
        have := hno j hj
        simpa using this
      simp only
      cases h2 : first_index line (fun i => decide ((rd b (k * line + i)).valid_bit = 0)) with
      | some i =>
        left
        obtain ⟨hi, hp, hlt⟩ := first_index_some h2
        simp only [decide_eq_true_eq] at hp
        refine ⟨hno2, i, hi, hp, ?_, ?_⟩
        · intro j hj
          have := hlt j hj
          simpa using this
        · simp only [fill_block, fill_stat, Bool.false_eq_true, if_false]
      | none =>
        right
        have hnv := first_index_none.mp h2
        have hnv2 : ∀ j, j < line → (rd b (k * line + j)).valid_bit ≠ 0 := by
          intro j hj
          have := hnv j hj
          simpa using this
        simp only
        cases h3 : first_index line (fun i =>
            decide ((rd b (k * line + i)).order = (order_bounds k line b).1)) with
        | some i =>
          left
          obtain ⟨hi, hp, hlt⟩ := first_index_some h3
          simp only [decide_eq_true_eq] at hp
          refine ⟨hno2, hnv2, i, hi, hp, ?_, ?_⟩
          · intro j hj
            have := hlt j hj
            simpa using this
          · simp only [evict_block, evict_stat, Bool.false_eq_true, if_false]
            split <;> simp_all
        | none =>
          right
          have hnm := first_index_none.mp h3
          refine ⟨hno2, hnv2, ?_, rfl⟩
          intro j hj
          have := hnm j hj
          simpa using this
  · -- load
    simp only [step, if_true]
    unfold eval_load
    simp only
    cases h1 : first_index line (fun i =>
        decide ((rd b (k * line + i)).tag = t) && decide ((rd b (k * line + i)).valid_bit = 1)) with
    | some i =>
      left
      obtain ⟨hi, hp, hlt⟩ := first_index_some h1
      simp only [Bool.and_eq_true, decide_eq_true_eq] at hp
      refine ⟨i, hi, ⟨hp.2, hp.1⟩, ?_, ?_⟩
      · intro j hj
        have := hlt j hj
        simp only [Bool.and_eq_false_imp, decide_eq_true_eq, decide_eq_false_iff_not] at this
        tauto
      · simp only [hit_block, hit_stat, if_true]
    | none =>
      right
      have hno := first_index_none.mp h1
      have hno2 : ∀ j, j < line →
          ¬ ((rd b (k * line + j)).valid_bit = 1 ∧ (rd b (k * line + j)).tag = t) := by
        intro j hj
        have := hno j hj
        simp only [Bool.and_eq_false_imp, decide_eq_true_eq, decide_eq_false_iff_not] at this
        tauto
      simp only
      cases h2 : first_index line (fun i => decide ((rd b (k * line + i)).valid_bit = 0)) with
      | some i =>
        left
        obtain ⟨hi, hp, hlt⟩ := first_index_some h2
        simp only [decide_eq_true_eq] at hp
        refine ⟨hno2, i, hi, hp, ?_, ?_⟩
        · intro j hj
          have := hlt j hj
          simpa using this
        · simp only [fill_block, fill_stat, if_true]
      | none =>
        right
        have hnv := first_index_none.mp h2
        have hnv2 : ∀ j, j < line → (rd b (k * line + j)).valid_bit ≠ 0 := by
          intro j hj
          have := hnv j hj
          simpa using this
        simp only
        cases h3 : first_index line (fun i =>
            decide ((rd b (k * line + i)).order = (order_bounds k line b).1)) with
        | some i =>
          left
          obtain ⟨hi, hp, hlt⟩ := first_index_some h3
          simp only [decide_eq_true_eq] at hp
          refine ⟨hno2, hnv2, i, hi, hp, ?_, ?_⟩
          · intro j hj
            have := hlt j hj
            simpa using this
          · simp only [evict_block, evict_stat, if_true]
            split <;> simp_all
        | none =>
          right
          have hnm := first_index_none.mp h3
          refine ⟨hno2, hnv2, ?_, rfl⟩
          intro j hj
          have := hnm j hj
          simpa using this

theorem rd_set (b : List block_t) (j : Nat) (x : block_t) (j' : Nat) :
    rd (b.set j x) j' = if j = j' ∧ j < b.length then x else rd b j' := by
  unfold rd
  rw [List.getD_eq_getElem?_getD, List.getD_eq_getElem?_getD, List.getElem?_set]
  by_cases h : j = j'
  · subst h
    by_cases h2 : j < b.length
    · simp [h2]
    · have h3 : b[j]? = none := List.getElem?_eq_none (by omega)
      simp [h2, h3]
  · simp [h]

theorem index_inj {E k i k' i' : Nat} (hi : i < E) (hi' : i' < E)
    (h : k * E + i = k' * E + i') : k = k' ∧ i = i' := by
  have hE : 0 < E := by omega
  have h1 : (k * E + i) / E = k := by
    rw [Nat.add_comm, Nat.add_mul_div_right _ _ hE, Nat.div_eq_of_lt hi]; simp
  have h2 : (k' * E + i') / E = k' := by
    rw [Nat.add_comm, Nat.add_mul_div_right _ _ hE, Nat.div_eq_of_lt hi']; simp
  have hk : k = k' := by rw [← h1, ← h2, h]
  subst hk
  exact ⟨rfl, by omega⟩

theorem index_lt {S E k i : Nat} (hk : k < S) (hi : i < E) : k * E + i < S * E := by
  have : (k + 1) * E ≤ S * E := Nat.mul_le_mul_right E hk
  have h2 : (k + 1) * E = k * E + E := by ring
  omega

theorem countP_set_int (p : block_t → Bool) (l : List block_t) (j : Nat) (x : block_t)
    (hj : j < l.length) :
    ((l.set j x).countP p : Int) =
      (l.countP p : Int) - (if p (rd l j) then 1 else 0) + (if p x then 1 else 0) := by
  induction l generalizing j with
  | nil => simp at hj
  | cons y ys ih =>
    cases j with
    | zero =>
      simp only [List.set_cons_zero, List.countP_cons, rd, List.getD_cons_zero]
      push_cast
      split <;> split <;> simp
    | succ j =>
      have hj' : j < ys.length := by simpa using hj
      have := ih j hj'
      simp only [List.set_cons_succ, List.countP_cons, rd, List.getD_cons_succ] at this ⊢
      push_cast
      rw [this]
      ring

/-! ## The order-independent invariant -/

theorem rd_init (S E j : Nat) : rd (init_cache S E) j = zero_block := by
  unfold rd init_cache
  rw [List.getD_eq_getElem?_getD]
  by_cases h : j < S * E
  · simp [List.getElem?_replicate, h]
  · simp [List.getElem?_replicate, h]

theorem base_inv_init (S E : Nat) : base_inv S E (init_state S E) := by
  refine ⟨by simp [init_state, init_cache], ?_, ?_, ?_⟩
  · intro j _
    simp [init_state, rd_init, zero_block]
  · intro k i j _ _ _ _ h
    simp [init_state, rd_init, zero_block] at h
  · simp [init_state, init_stat, dirty_count, init_cache, zero_block, List.countP_replicate]

/-- Overwriting line `i` of set `k` keeps `base_inv` when the new block has 0/1 bits, is
clean if invalid, carries a tag no other valid line of the set has, and the counter
follows the change of the line's dirty bit. -/
theorem base_inv_set {S E : Nat} {b : List block_t} {st st' : csim_stats_t} {k i : Nat}
    {x : block_t} (h : base_inv S E (b, st)) (hk : k < S) (hi : i < E)
    (hv : x.valid_bit = 0 ∨ x.valid_bit = 1) (hd : x.dirty_bit = 0 ∨ x.dirty_bit = 1)
    (hvd : x.valid_bit = 0 → x.dirty_bit = 0)
    (htag : x.valid_bit = 1 → ∀ j, j < E → j ≠ i → (rd b (k * E + j)).valid_bit = 1 →
      (rd b (k * E + j)).tag ≠ x.tag)
    (hst : st'.dirty_bytes = st.dirty_bytes - (rd b (k * E + i)).dirty_bit + x.dirty_bit) :
    base_inv S E (b.set (k * E + i) x, st') := by
  have hlen : b.length = S * E := h.len
  have hidx : k * E + i < b.length := by rw [hlen]; exact index_lt hk hi
  refine ⟨by simpa using hlen, ?_, ?_, ?_⟩
  · intro j hj
    simp only [rd_set]
    split
    · exact ⟨hv, hd, hvd⟩
    · exact h.bits j hj
  · intro k' i' j' hk' hi' hj' hne h1 h2
    simp only [rd_set] at h1 h2 ⊢
    by_cases e1 : k * E + i = k' * E + i'
    · obtain ⟨rfl, rfl⟩ := index_inj hi hi' e1
      have e2 : ¬ (k * E + i = k * E + j') := by omega
      simp only [e2, false_and, if_false, true_and, hidx, if_true] at h1 h2 ⊢
      exact (htag h1 j' hj' (fun e => hne e.symm) h2).symm
    · by_cases e2 : k * E + i = k' * E + j'
      · obtain ⟨rfl, rfl⟩ := index_inj hi hj' e2
        simp only [e1, false_and, if_false, true_and, hidx, if_true] at h1 h2 ⊢
        exact htag h2 i' hi' hne h1
      · simp only [e1, e2, false_and, if_false] at h1 h2 ⊢
        exact h.tags k' i' j' hk' hi' hj' hne h1 h2
  · have hb := h.bits (k * E + i) (index_lt hk hi)
    have hc := h.dirty
    simp only at hc hb ⊢
    rw [hst, hc]
    unfold dirty_count
    rw [countP_set_int _ _ _ _ hidx]
    have e1 : (if decide ((rd b (k * E + i)).dirty_bit = 1) = true then (1 : Int) else 0)
        = (rd b (k * E + i)).dirty_bit := by
      rcases hb.2.1 with h0 | h0 <;> simp [h0]
    have e2 : (if decide (x.dirty_bit = 1) = true then (1 : Int) else 0) = x.dirty_bit := by
      rcases hd with h0 | h0 <;> simp [h0]
    rw [e1, e2]

theorem base_inv_step {S E : Nat} {c : List block_t × csim_stats_t} {a : access}
    (hk : a.set < S) (h : base_inv S E c) : base_inv S E (step E c a) := by
  obtain ⟨b, st⟩ := c
  rcases step_cases E b st a with
    ⟨i, hi, hhit, _, heq⟩ | ⟨hno, i, hi, hinv, _, heq⟩ | ⟨hno, hnv, i, hi, _, _, heq⟩ |
    ⟨_, _, _, heq⟩
  · rw [heq]
    have hb := h.bits (a.set * E + i) (index_lt hk hi)
    simp only at hb
    apply base_inv_set h hk hi
    · simpa [hit_block] using hb.1
    · simp only [hit_block]
      rcases hb.2.1 with h0 | h0 <;> cases a.is_load <;> simp [h0]
    · intro hv
      simp [hit_block, hhit.1] at hv
    · intro _ j hj hne hvj
      simp only [hit_block]
      rw [← hhit.2] at *
      exact h.tags a.set j i hk hj hi hne hvj hhit.1
    · simp only [hit_block, hit_stat]
      rcases hb.2.1 with h0 | h0 <;> cases a.is_load <;> simp [h0]
  · rw [heq]
    have hb := h.bits (a.set * E + i) (index_lt hk hi)
    simp only at hb
    have hd0 := hb.2.2 hinv
    apply base_inv_set h hk hi
    · simp [fill_block]
    · simp only [fill_block]
      cases a.is_load <;> simp [hd0]
    · intro hv
      simp [fill_block] at hv
    · intro _ j hj _ hvj
      simp only [fill_block]
      intro e
      exact hno j hj ⟨hvj, e⟩
    · simp only [fill_block, fill_stat]
      cases a.is_load <;> simp [hd0]
  · rw [heq]
    have hb := h.bits (a.set * E + i) (index_lt hk hi)
    simp only at hb
    have hv1 : (rd b (a.set * E + i)).valid_bit = 1 := by
      rcases hb.1 with h0 | h0
      · exact absurd h0 (hnv i hi)
      · exact h0
    apply base_inv_set h hk hi
    · simpa [evict_block] using hb.1
    · simp only [evict_block]
      rcases hb.2.1 with h0 | h0 <;> cases a.is_load <;> simp [h0]
    · intro hv
      simp [evict_block, hv1] at hv
    · intro _ j hj _ hvj
      simp only [evict_block]
      intro e
      exact hno j hj ⟨hvj, e⟩
    · simp only [evict_block, evict_stat]
      rcases hb.2.1 with h0 | h0 <;> cases a.is_load <;> simp [h0]
  · rw [heq]
    exact ⟨h.len, h.bits, h.tags, by simpa using h.dirty⟩

theorem base_inv_replay {S E : Nat} (trace : List access)
    (c : List block_t × csim_stats_t) (h : base_inv S E c)
    (hset : ∀ a ∈ trace, a.set < S) : base_inv S E (replay E c trace) := by
  induction trace generalizing c with
  | nil => simpa [replay] using h
  | cons a rest ih =>
    simp only [replay, List.foldl_cons]
    apply ih
    · exact base_inv_step (hset a (by simp)) h
    · intro a' ha'
      exact hset a' (by simp [ha'])

/-! ## Counters -/

theorem step_hits_misses (E : Nat) (c : List block_t × csim_stats_t) (a : access) :
    ((step E c a).2.hits = c.2.hits + 1 ∧ (step E c a).2.misses = c.2.misses) ∨
    ((step E c a).2.hits = c.2.hits ∧ (step E c a).2.misses = c.2.misses + 1) := by
  obtain ⟨b, st⟩ := c
  rcases step_cases E b st a with
    ⟨i, _, _, _, heq⟩ | ⟨_, i, _, _, _, heq⟩ | ⟨_, _, i, _, _, _, heq⟩ | ⟨_, _, _, heq⟩
  · left; simp [heq, hit_stat]
  · right; simp [heq, fill_stat]
  · right; simp [heq, evict_stat]
  · right; simp [heq]

theorem replay_hits_misses (E : Nat) (trace : List access) (c : List block_t × csim_stats_t) :
    (replay E c trace).2.hits + (replay E c trace).2.misses =
      c.2.hits + c.2.misses + (trace.length : Int) := by
  induction trace generalizing c with
  | nil => simp [replay]
  | cons a rest ih =>
    simp only [replay, List.foldl_cons, List.length_cons] at ih ⊢
    rw [ih (step E c a)]
    push_cast
    rcases step_hits_misses E c a with ⟨h1, h2⟩ | ⟨h1, h2⟩ <;> rw [h1, h2] <;> ring

/-! ## The decoder -/

theorem wrap_long_of_range {x : Int} (h0 : -2 ^ 63 ≤ x) (h1 : x < 2 ^ 63) : wrap_long x = x := by
  unfold wrap_long
  omega

theorem shl_one_SHIFT : shl_long 1 SHIFT = -2 ^ 63 := by
  decide

theorem shr_min_long (n : Nat) (hn : n ≤ 63) : shr_long (-2 ^ 63) n = -2 ^ (63 - n) := by
  unfold shr_long
  have h : (-2 ^ 63 : Int) = (-2 ^ (63 - n)) * 2 ^ n := by
    rw [neg_mul, ← pow_add]
    congr 2
    omega
  rw [h, Int.mul_ediv_cancel]
  positivity

theorem pow_two_le_int {m n : Nat} (h : m ≤ n) : (2 : Int) ^ m ≤ 2 ^ n :=
  pow_le_pow_right₀ (by norm_num) h

/-- Masking with `2 ^ m - 1` keeps the low `m` bits. -/
theorem and_long_mask (m : Nat) (hm : m ≤ 63) (y : Int) :
    and_long (2 ^ m - 1) y = y % 2 ^ m := by
  have hpos : (0 : Int) < 2 ^ m := by positivity
  have hle : (2 : Int) ^ m ≤ 2 ^ 63 := pow_two_le_int hm
  have hb : bits_long (2 ^ m - 1) = 2 ^ m - 1 := by
    unfold bits_long
    have e : ((2 : Int) ^ m - 1) % 2 ^ 64 = 2 ^ m - 1 := by
      apply Int.emod_eq_of_lt <;> omega
    rw [e]
    have hposn : 0 < 2 ^ m := by positivity
    zify
    rw [Int.toNat_of_nonneg (by omega)]
    push_cast [Nat.cast_sub hposn]
    rfl
  unfold and_long
  rw [hb]
  have hl : Nat.land (2 ^ m - 1) (bits_long y) = bits_long y % 2 ^ m := by
    show (2 ^ m - 1) &&& bits_long y = _
    rw [Nat.land_comm, Nat.and_pow_two_sub_one_eq_mod]
  rw [hl]
  have hmod : ((bits_long y % 2 ^ m : Nat) : Int) = y % 2 ^ m := by
    have hc : ((bits_long y : Nat) : Int) = y % 2 ^ 64 := by
      unfold bits_long
      exact Int.toNat_of_nonneg (Int.emod_nonneg _ (by positivity))
    have hd : (2 : Int) ^ m ∣ 2 ^ 64 := pow_dvd_pow 2 (by omega)
    rw [Int.natCast_mod, hc]
    push_cast
    exact Int.emod_emod_of_dvd _ hd
  show wrap_long ((bits_long y % 2 ^ m : Nat) : Int) = _
  rw [hmod]
  apply wrap_long_of_range
  · have := Int.emod_nonneg y (ne_of_gt hpos)
    omega
  · have := Int.emod_lt_of_pos y hpos
    omega

theorem main_set_num_eq (s b : Nat) (hs : s ≤ 63) (address : Int) :
    main_set_num s b address = (address / 2 ^ b) % 2 ^ s := by
  unfold main_set_num
  simp only
  rw [shl_one_SHIFT, shr_min_long _ (by unfold SHIFT; omega)]
  have e : 63 - (SHIFT - s) = s := by unfold SHIFT; omega
  rw [e]
  have e2 : not_long (-2 ^ s) = 2 ^ s - 1 := by unfold not_long; ring
  rw [e2, and_long_mask s hs]
  rfl

theorem main_tag_num_eq (s b : Nat) (hsb : s + b ≤ 63) (address : Int) :
    main_tag_num s b address = (address / 2 ^ b / 2 ^ s) % 2 ^ (63 - (s + b)) := by
  unfold main_tag_num
  simp only
  rw [shl_one_SHIFT, shr_min_long _ hsb]
  have e2 : not_long (-2 ^ (63 - (s + b))) = 2 ^ (63 - (s + b)) - 1 := by
    unfold not_long; ring
  rw [e2, and_long_mask _ (by omega)]
  rfl

/-- The number read by `%lx`, stored in the `long` variable `address`. -/
theorem wrap_long_nat (a : Nat) (ha : a < 2 ^ 64) :
    wrap_long a = (a : Int) ∨ wrap_long a = (a : Int) - 2 ^ 64 := by
  unfold wrap_long
  have : (a : Int) < 2 ^ 64 := by exact_mod_cast ha
  omega

theorem shr_wrap_long_mod (a b m : Nat) (ha : a < 2 ^ 64) (hbm : b + m ≤ 64) :
    (wrap_long a / 2 ^ b) % 2 ^ m = (((a / 2 ^ b) % 2 ^ m : Nat) : Int) := by
  have hb0 : (2 : Int) ^ b ≠ 0 := by positivity
  push_cast
  rcases wrap_long_nat a ha with h | h
  · rw [h]
  · rw [h]
    have e : ((a : Int) - 2 ^ 64) = a + (-(2 ^ (64 - b - m)) * 2 ^ m) * 2 ^ b := by
      rw [mul_assoc, neg_mul, ← pow_add, ← pow_add]
      have : 64 - b - m + (m + b) = 64 := by omega
      rw [this]
      ring
    rw [e, Int.add_mul_ediv_right _ _ hb0, Int.add_mul_emod_self]

theorem shr_shr_wrap_long_mod (a b s m : Nat) (ha : a < 2 ^ 64) (h : b + s + m ≤ 64) :
    (wrap_long a / 2 ^ b / 2 ^ s) % 2 ^ m = (((a / 2 ^ (b + s)) % 2 ^ m : Nat) : Int) := by
  have hb0 : (2 : Int) ^ b ≠ 0 := by positivity
  have hs0 : (2 : Int) ^ s ≠ 0 := by positivity
  have hnat : ((a : Int) / 2 ^ b / 2 ^ s) % 2 ^ m = (((a / 2 ^ (b + s)) % 2 ^ m : Nat) : Int) := by
    rw [pow_add, ← Nat.div_div_eq_div_mul]
    push_cast
    rfl
  rcases wrap_long_nat a ha with e | e
  · rw [e, hnat]
  · rw [e, ← hnat]
    have e1 : ((a : Int) - 2 ^ 64) = a + (-(2 ^ (64 - b))) * 2 ^ b := by
      rw [neg_mul, ← pow_add]
      have : 64 - b + b = 64 := by omega
      rw [this]
      ring
    have e2 : (-(2 : Int) ^ (64 - b)) = (-(2 ^ (64 - b - s))) * 2 ^ s := by
      rw [neg_mul, ← pow_add]
      have : 64 - b - s + s = 64 - b := by omega
      rw [this]
    have e3 : (-(2 : Int) ^ (64 - b - s)) = (-(2 ^ (64 - b - s - m))) * 2 ^ m := by
      rw [neg_mul, ← pow_add]
      have : 64 - b - s - m + m = 64 - b - s := by omega
      rw [this]
    rw [e1, Int.add_mul_ediv_right _ _ hb0, e2, Int.add_mul_ediv_right _ _ hs0, e3,
      Int.add_mul_emod_self]

/-- What the decoder's tag is in general: address bits `[b+s, 63)`, one bit short of the
top of the address. -/
theorem main_tag_num_low_bits (a s b : Nat) (ha : a < 2 ^ 64) (hsb : s + b ≤ 63) :
    main_tag_num s b (wrap_long a) =
      (((a / 2 ^ (b + s)) % 2 ^ (63 - (s + b)) : Nat) : Int) := by
  rw [main_tag_num_eq s b hsb]
  exact shr_shr_wrap_long_mod a b s (63 - (s + b)) ha (by omega)

/-! ## A two-line set, step by step -/

theorem first_index_two (p : Nat → Bool) :
    first_index 2 p = if p 0 then some 0 else if p 1 then some 1 else none := by
  simp only [first_index, List.range_succ, List.range_zero, List.nil_append, List.cons_append,
    List.find?_cons, List.find?_nil]
  cases p 0 <;> cases p 1 <;> rfl

theorem order_bounds_two (k : Nat) (b : List block_t) :
    order_bounds k 2 b =
      ((if (rd b (k * 2 + 1)).order < (rd b (k * 2)).order
          then (rd b (k * 2 + 1)).order else (rd b (k * 2)).order),
       (if (rd b (k * 2 + 1)).order > (rd b (k * 2)).order
          then (rd b (k * 2 + 1)).order else (rd b (k * 2)).order)) := by
  simp [order_bounds, List.range_succ]

theorem wrap_int_small {x : Int} (h0 : -2 ^ 31 ≤ x) (h1 : x < 2 ^ 31) : wrap_int x = x := by
  unfold wrap_int
  omega

/-- The four accesses `A, B, A, C` on a fresh two-line set `k`, one after the other: the
array after each access and the movement of the counters. -/
theorem two_way_trace (S k : Nat) (A B C : Int) (l1 l2 l3 l4 : Bool) (hk : k < S)
    (hAB : A ≠ B) (hAC : A ≠ C) (hBC : B ≠ C) :
    ∃ d1 d2 d3 d4 : Int,
      (∀ st, (step 2 (init_cache S 2, st) ⟨l1, A, k⟩).1 =
          (init_cache S 2).set (k * 2) ⟨1, d1, A, 1⟩ ∧
        (step 2 (init_cache S 2, st) ⟨l1, A, k⟩).2.hits = st.hits ∧
        (step 2 (init_cache S 2, st) ⟨l1, A, k⟩).2.misses = st.misses + 1 ∧
        (step 2 (init_cache S 2, st) ⟨l1, A, k⟩).2.evictions = st.evictions) ∧
      (∀ st, (step 2 ((init_cache S 2).set (k * 2) ⟨1, d1, A, 1⟩, st) ⟨l2, B, k⟩).1 =
          ((init_cache S 2).set (k * 2) ⟨1, d1, A, 1⟩).set (k * 2 + 1) ⟨1, d2, B, 2⟩ ∧
        (step 2 ((init_cache S 2).set (k * 2) ⟨1, d1, A, 1⟩, st) ⟨l2, B, k⟩).2.hits =
          st.hits ∧
        (step 2 ((init_cache S 2).set (k * 2) ⟨1, d1, A, 1⟩, st) ⟨l2, B, k⟩).2.misses =
          st.misses + 1 ∧
        (step 2 ((init_cache S 2).set (k * 2) ⟨1, d1, A, 1⟩, st) ⟨l2, B, k⟩).2.evictions =
          st.evictions) ∧
      (∀ st, (step 2 (((init_cache S 2).set (k * 2) ⟨1, d1, A, 1⟩).set (k * 2 + 1)
            ⟨1, d2, B, 2⟩, st) ⟨l3, A, k⟩).1 =
          (((init_cache S 2).set (k * 2) ⟨1, d1, A, 1⟩).set (k * 2 + 1) ⟨1, d2, B, 2⟩).set
            (k * 2) ⟨1, d3, A, 3⟩ ∧
        (step 2 (((init_cache S 2).set (k * 2) ⟨1, d1, A, 1⟩).set (k * 2 + 1)
            ⟨1, d2, B, 2⟩, st) ⟨l3, A, k⟩).2.hits = st.hits + 1 ∧
        (step 2 (((init_cache S 2).set (k * 2) ⟨1, d1, A, 1⟩).set (k * 2 + 1)
            ⟨1, d2, B, 2⟩, st) ⟨l3, A, k⟩).2.misses = st.misses ∧
        (step 2 (((init_cache S 2).set (k * 2) ⟨1, d1, A, 1⟩).set (k * 2 + 1)
            ⟨1, d2, B, 2⟩, st) ⟨l3, A, k⟩).2.evictions = st.evictions) ∧
      (∀ st, (step 2 ((((init_cache S 2).set (k * 2) ⟨1, d1, A, 1⟩).set (k * 2 + 1)
            ⟨1, d2, B, 2⟩).set (k * 2) ⟨1, d3, A, 3⟩, st) ⟨l4, C, k⟩).1 =
          ((((init_cache S 2).set (k * 2) ⟨1, d1, A, 1⟩).set (k * 2 + 1) ⟨1, d2, B, 2⟩).set
            (k * 2) ⟨1, d3, A, 3⟩).set (k * 2 + 1) ⟨1, d4, C, 4⟩ ∧
        (step 2 ((((init_cache S 2).set (k * 2) ⟨1, d1, A, 1⟩).set (k * 2 + 1)
            ⟨1, d2, B, 2⟩).set (k * 2) ⟨1, d3, A, 3⟩, st) ⟨l4, C, k⟩).2.hits = st.hits ∧
        (step 2 ((((init_cache S 2).set (k * 2) ⟨1, d1, A, 1⟩).set (k * 2 + 1)
            ⟨1, d2, B, 2⟩).set (k * 2) ⟨1, d3, A, 3⟩, st) ⟨l4, C, k⟩).2.misses =
          st.misses + 1 ∧
        (step 2 ((((init_cache S 2).set (k * 2) ⟨1, d1, A, 1⟩).set (k * 2 + 1)
            ⟨1, d2, B, 2⟩).set (k * 2) ⟨1, d3, A, 3⟩, st) ⟨l4, C, k⟩).2.evictions =
          st.evictions + 1) := by
  have h0 : k * 2 < S * 2 := by omega
  have h1 : k * 2 + 1 < S * 2 := by omega
  have hBA : B ≠ A := fun e => hAB e.symm
  have hl : (init_cache S 2).length = S * 2 := by simp [init_cache]
  refine ⟨if l1 then 0 else 1, if l2 then 0 else 1,
    if l3 then (if l1 then 0 else 1) else 1, if l4 then 0 else 1, ?_, ?_, ?_, ?_⟩
  · intro st
    cases l1 <;>
    simp [step, eval_load, eval_store, first_index_two, order_bounds_two, rd_init, zero_block,
      wrap_int]
  · intro st
    cases l1 <;> cases l2 <;>
    simp [step, eval_load, eval_store, first_index_two, order_bounds_two, rd_init, rd_set,
      zero_block, wrap_int, hl, h0, h1, hAB, hBA]
  · intro st
    cases l1 <;> cases l2 <;> cases l3 <;>
    simp [step, eval_load, eval_store, first_index_two, order_bounds_two, rd_init, rd_set,
      zero_block, wrap_int, hl, h0, h1, hAB, hBA]
  · intro st
    cases l1 <;> cases l2 <;> cases l3 <;> cases l4 <;>
    simp [step, eval_load, eval_store, first_index_two, order_bounds_two, rd_init, rd_set,
      zero_block, wrap_int, hl, h0, h1, hAB, hBA, hAC, hBC]

/-! ## Simulation of the reference LRU model -/

theorem set_rel_congr {E : Nat} {n : Int} {f g : Nat → block_t} {l : List Int}
    (hfg : ∀ i, i < E → f i = g i) (h : set_rel E n f l) : set_rel E n g l := by
  refine ⟨?_, ?_, ?_, ?_, ?_, ?_, h.nodup, ?_⟩
  · intro i hi; rw [← hfg i hi]; exact h.valid01 i hi
  · intro i hi; rw [← hfg i hi]; exact h.ord_lo i hi
  · intro i hi; rw [← hfg i hi]; exact h.ord_hi i hi
  · intro i j hi hj; rw [← hfg i hi, ← hfg j hj]; exact h.tags i j hi hj
  · intro t
    rw [h.mem t]
    constructor
    · rintro ⟨i, hi, h1⟩; exact ⟨i, hi, by rw [← hfg i hi]; exact h1⟩
    · rintro ⟨i, hi, h1⟩; exact ⟨i, hi, by rw [hfg i hi]; exact h1⟩
  · intro i hi; rw [← hfg i hi]; exact h.len i hi
  · refine h.sorted.imp ?_
    intro t u hR i j hi hj
    rw [← hfg i hi, ← hfg j hj]
    exact hR i j hi hj

/-- Line `i0` is overwritten by a valid block `x` with tag `t` and an order above every
order of the set; `l0` lists the tags of the other valid lines.  Then the set is linked
to `t :: l0`. -/
theorem set_rel_touch {E : Nat} {n : Int} {f : Nat → block_t} {l l0 : List Int} {i0 : Nat}
    {x : block_t} {t : Int} (h : set_rel E n f l) (hi0 : i0 < E)
    (hxv : x.valid_bit = 1) (hxt : x.tag = t)
    (hord : ∀ i, i < E → (f i).order < x.order) (hhi : x.order ≤ n + 1)
    (hother : ∀ i, i < E → i ≠ i0 → (f i).valid_bit = 1 → (f i).tag ≠ t)
    (hsub : l0.Sublist l)
    (hmem0 : ∀ u, u ∈ l0 ↔ ∃ i, i < E ∧ i ≠ i0 ∧ (f i).valid_bit = 1 ∧ (f i).tag = u)
    (hlen0 : ∀ i, i < E → ((i = i0 ∨ (f i).valid_bit = 1) ↔ i < l0.length + 1)) :
    set_rel E (n + 1) (fun i => if i = i0 then x else f i) (t :: l0) := by
  have htl0 : t ∉ l0 := by
    intro ht
    obtain ⟨i, hi, hne, hv, htag⟩ := (hmem0 t).mp ht
    exact hother i hi hne hv htag
  refine ⟨?_, ?_, ?_, ?_, ?_, ?_, ?_, ?_⟩
  · intro i hi
    by_cases e : i = i0
    · simp [e, hxv]
    · simp only [e, if_false]; exact h.valid01 i hi
  · intro i hi
    by_cases e : i = i0
    · simp only [e, if_true]
      have := hord i0 hi0
      have := h.ord_lo i0 hi0
      omega
    · simp only [e, if_false]; exact h.ord_lo i hi
  · intro i hi
    by_cases e : i = i0
    · simp only [e, if_true]; exact hhi
    · simp only [e, if_false]
      have := h.ord_hi i hi
      omega
  · intro i j hi hj hij hvi hvj
    by_cases e : i = i0
    · have e' : ¬ j = i0 := fun e' => hij (e.trans e'.symm)
      simp only [e, e', if_true, if_false] at hvi hvj ⊢
      rw [hxt]
      exact (hother j hj e' hvj).symm
    · by_cases e' : j = i0
      · simp only [e, e', if_true, if_false] at hvi hvj ⊢
        rw [hxt]
        exact hother i hi e hvi
      · simp only [e, e', if_false] at hvi hvj ⊢
        exact h.tags i j hi hj hij hvi hvj
  · intro u
    rw [List.mem_cons, hmem0 u]
    constructor
    · rintro (rfl | ⟨i, hi, hne, hv, htag⟩)
      · exact ⟨i0, hi0, by simp [hxv, hxt]⟩
      · exact ⟨i, hi, by simp [hne, hv, htag]⟩
    · rintro ⟨i, hi, hv, htag⟩
      by_cases e : i = i0
      · simp only [e, if_true] at htag
        left; rw [← htag, hxt]
      · simp only [e, if_false] at hv htag
        right; exact ⟨i, hi, e, hv, htag⟩
  · intro i hi
    rw [List.length_cons, ← hlen0 i hi]
    by_cases e : i = i0
    · simp [e, hxv]
    · simp [e]
  · exact List.nodup_cons.mpr ⟨htl0, h.nodup.sublist hsub⟩
  · rw [List.pairwise_cons]
    constructor
    · intro u hu i j hi hj hvi hti hvj htj
      have ei : i = i0 := by
        by_contra e
        simp only [e, if_false] at hvi hti
        exact hother i hi e hvi hti
      have ej : ¬ j = i0 := by
        intro e
        simp only [e, if_true] at htj
        rw [hxt] at htj
        exact htl0 (htj ▸ hu)
      simp only [ei, ej, if_true, if_false]
      exact hord j hj
    · refine List.Pairwise.imp_of_mem ?_ (h.sorted.sublist hsub)
      intro u v hu hv hR i j hi hj hvi hti hvj htj
      have ei : ¬ i = i0 := by
        intro e
        simp only [e, if_true] at hti
        rw [hxt] at hti
        exact htl0 (hti ▸ hu)
      have ej : ¬ j = i0 := by
        intro e
        simp only [e, if_true] at htj
        rw [hxt] at htj
        exact htl0 (htj ▸ hv)
      simp only [ei, ej, if_false] at hvi hti hvj htj ⊢
      exact hR i j hi hj hvi hti hvj htj

theorem lru_hit {E : Nat} {n : Int} {f : Nat → block_t} {l : List Int} {i0 : Nat} {t : Int}
    (h : set_rel E n f l) (hi0 : i0 < E) (hv : (f i0).valid_bit = 1) (ht : (f i0).tag = t) :
    lru_access E l t = (t :: l.erase t, outcome.hit) := by
  have hmem : t ∈ l := (h.mem t).mpr ⟨i0, hi0, hv, ht⟩
  simp [lru_access, hmem]

theorem rel_hit {E : Nat} {n : Int} {f : Nat → block_t} {l : List Int} {i0 : Nat} {t : Int}
    {x : block_t} (h : set_rel E n f l) (hi0 : i0 < E) (hv : (f i0).valid_bit = 1)
    (ht : (f i0).tag = t) (hxv : x.valid_bit = 1) (hxt : x.tag = t)
    (hord : ∀ i, i < E → (f i).order < x.order) (hhi : x.order ≤ n + 1) :
    set_rel E (n + 1) (fun i => if i = i0 then x else f i) (t :: l.erase t) := by
  have hmem : t ∈ l := (h.mem t).mpr ⟨i0, hi0, hv, ht⟩
  apply set_rel_touch h hi0 hxv hxt hord hhi
  · intro i hi hne hvi
    rw [← ht]
    exact h.tags i i0 hi hi0 hne hvi hv
  · exact List.erase_sublist t l
  · intro u
    rw [h.nodup.mem_erase_iff, h.mem u]
    constructor
    · rintro ⟨hne, i, hi, hvi, hti⟩
      refine ⟨i, hi, ?_, hvi, hti⟩
      intro e
      subst e
      exact hne (hti.symm.trans ht)
    · rintro ⟨i, hi, hne, hvi, hti⟩
      refine ⟨?_, i, hi, hvi, hti⟩
      intro e
      apply h.tags i i0 hi hi0 hne hvi hv
      rw [hti, ht, e]
  · intro i hi
    have hlen : (l.erase t).length + 1 = l.length := by
      rw [List.length_erase_of_mem hmem]
      have := List.length_pos_of_mem hmem
      omega
    rw [hlen, ← h.len i hi]
    constructor
    · rintro (e | h')
      · rw [e]; exact hv
      · exact h'
    · intro h'; exact Or.inr h'

theorem lru_fill {E : Nat} {n : Int} {f : Nat → block_t} {l : List Int} {i0 : Nat} {t : Int}
    (h : set_rel E n f l)
    (hno : ∀ j, j < E → ¬ ((f j).valid_bit = 1 ∧ (f j).tag = t))
    (hi0 : i0 < E) (hv0 : (f i0).valid_bit = 0) :
    lru_access E l t = (t :: l, outcome.miss_fill) := by
  have hmem : t ∉ l := by
    intro ht
    obtain ⟨i, hi, hv, htag⟩ := (h.mem t).mp ht
    exact hno i hi ⟨hv, htag⟩
  have hlen : l.length < E := by
    have h1 := h.len i0 hi0
    rw [hv0] at h1
    have : ¬ i0 < l.length := fun h2 => by simpa using h1.mpr h2
    omega
  simp [lru_access, hmem, hlen]

theorem rel_fill {E : Nat} {n : Int} {f : Nat → block_t} {l : List Int} {i0 : Nat} {t : Int}
    {x : block_t} (h : set_rel E n f l)
    (hno : ∀ j, j < E → ¬ ((f j).valid_bit = 1 ∧ (f j).tag = t))
    (hi0 : i0 < E) (hv0 : (f i0).valid_bit = 0)
    (hfirst : ∀ j, j < i0 → (f j).valid_bit ≠ 0)
    (hxv : x.valid_bit = 1) (hxt : x.tag = t)
    (hord : ∀ i, i < E → (f i).order < x.order) (hhi : x.order ≤ n + 1) :
    set_rel E (n + 1) (fun i => if i = i0 then x else f i) (t :: l) := by
  have hnot : ¬ i0 < l.length := by
    intro h2
    have := (h.len i0 hi0).mpr h2
    rw [hv0] at this
    simp at this
  have hle : i0 ≤ l.length := by
    by_contra hlt
    have hj : l.length < i0 := by omega
    have hjE : l.length < E := by omega
    rcases h.valid01 l.length hjE with h0 | h1
    · exact hfirst _ hj h0
    · have := (h.len l.length hjE).mp h1
      omega
  have hi0l : i0 = l.length := by omega
  apply set_rel_touch h hi0 hxv hxt hord hhi
  · intro i hi _ hvi hti
    exact hno i hi ⟨hvi, hti⟩
  · exact List.Sublist.refl l
  · intro u
    rw [h.mem u]
    constructor
    · rintro ⟨i, hi, hvi, hti⟩
      refine ⟨i, hi, ?_, hvi, hti⟩
      intro e
      rw [e, hv0] at hvi
      simp at hvi
    · rintro ⟨i, hi, _, hvi, hti⟩
      exact ⟨i, hi, hvi, hti⟩
  · intro i hi
    rw [h.len i hi]
    omega

/-- In a full set the line of minimal order holds the last tag of the LRU list. -/
theorem evict_last {E : Nat} {n : Int} {f : Nat → block_t} {l : List Int} {i0 : Nat}
    (h : set_rel E n f l) (hall : ∀ j, j < E → (f j).valid_bit ≠ 0)
    (hi0 : i0 < E) (hmin : ∀ j, j < E → (f i0).order ≤ (f j).order) :
    l.dropLast ++ [(f i0).tag] = l := by
  have hvalid : ∀ j, j < E → (f j).valid_bit = 1 := by
    intro j hj
    rcases h.valid01 j hj with h0 | h1
    · exact absurd h0 (hall j hj)
    · exact h1
  have hmem : (f i0).tag ∈ l := (h.mem _).mpr ⟨i0, hi0, hvalid i0 hi0, rfl⟩
  have hne : l ≠ [] := List.ne_nil_of_mem hmem
  have hsplit : l.dropLast ++ [l.getLast hne] = l := List.dropLast_append_getLast hne
  have hlast : l.getLast hne ∈ l := List.getLast_mem hne
  obtain ⟨j, hj, hvj, htj⟩ := (h.mem _).mp hlast
  by_cases e : (f i0).tag = l.getLast hne
  · rw [e]; exact hsplit
  · exfalso
    have hin : (f i0).tag ∈ l.dropLast := by
      have h2 : (f i0).tag ∈ l.dropLast ++ [l.getLast hne] := by rw [hsplit]; exact hmem
      rcases List.mem_append.mp h2 with h3 | h3
      · exact h3
      · simp at h3; exact absurd h3 e
    have hs := h.sorted
    rw [← hsplit, List.pairwise_append] at hs
    have := hs.2.2 _ hin _ (List.mem_singleton_self _) i0 j hi0 hj (hvalid i0 hi0) rfl hvj htj
    have := hmin j hj
    omega

theorem lru_evict {E : Nat} {n : Int} {f : Nat → block_t} {l : List Int} {i0 : Nat} {t : Int}
    (h : set_rel E n f l)
    (hno : ∀ j, j < E → ¬ ((f j).valid_bit = 1 ∧ (f j).tag = t))
    (hall : ∀ j, j < E → (f j).valid_bit ≠ 0)
    (hi0 : i0 < E) (hmin : ∀ j, j < E → (f i0).order ≤ (f j).order) :
    lru_access E l t = (t :: l.dropLast, outcome.miss_evict (some (f i0).tag)) := by
  have hvalid : ∀ j, j < E → (f j).valid_bit = 1 := by
    intro j hj
    rcases h.valid01 j hj with h0 | h1
    · exact absurd h0 (hall j hj)
    · exact h1
  have hmem : t ∉ l := by
    intro ht
    obtain ⟨i, hi, hv, htag⟩ := (h.mem t).mp ht
    exact hno i hi ⟨hv, htag⟩
  have hlen : ¬ l.length < E := by
    have := (h.len (E - 1) (by omega)).mp (hvalid _ (by omega))
    omega
  have hl := evict_last h hall hi0 hmin
  have hlast : l.getLast? = some (f i0).tag := by
    rw [← hl]
    simp
  simp [lru_access, hmem, hlen, hlast]

theorem rel_evict {E : Nat} {n : Int} {f : Nat → block_t} {l : List Int} {i0 : Nat} {t : Int}
    {x : block_t} (h : set_rel E n f l)
    (hno : ∀ j, j < E → ¬ ((f j).valid_bit = 1 ∧ (f j).tag = t))
    (hall : ∀ j, j < E → (f j).valid_bit ≠ 0)
    (hi0 : i0 < E) (hmin : ∀ j, j < E → (f i0).order ≤ (f j).order)
    (hxv : x.valid_bit = 1) (hxt : x.tag = t)
    (hord : ∀ i, i < E → (f i).order < x.order) (hhi : x.order ≤ n + 1) :
    set_rel E (n + 1) (fun i => if i = i0 then x else f i) (t :: l.dropLast) := by
  have hvalid : ∀ j, j < E → (f j).valid_bit = 1 := by
    intro j hj
    rcases h.valid01 j hj with h0 | h1
    · exact absurd h0 (hall j hj)
    · exact h1
  have hl := evict_last h hall hi0 hmin
  have hnd : (l.dropLast ++ [(f i0).tag]).Nodup := by rw [hl]; exact h.nodup
  have hnotin : (f i0).tag ∉ l.dropLast := by
    intro hin
    have := (List.nodup_append.mp hnd).2.2
    exact this hin (List.mem_singleton_self _)
  apply set_rel_touch h hi0 hxv hxt hord hhi
  · intro i hi _ hvi hti
    exact hno i hi ⟨hvi, hti⟩
  · exact List.dropLast_sublist l
  · intro u
    constructor
    · intro hu
      have hul : u ∈ l := (List.dropLast_sublist l).subset hu
      obtain ⟨i, hi, hvi, hti⟩ := (h.mem u).mp hul
      refine ⟨i, hi, ?_, hvi, hti⟩
      intro e
      rw [e] at hti
      exact hnotin (hti ▸ hu)
    · rintro ⟨i, hi, hne, hvi, hti⟩
      have hul : u ∈ l := (h.mem u).mpr ⟨i, hi, hvi, hti⟩
      rw [← hl] at hul
      rcases List.mem_append.mp hul with h3 | h3
      · exact h3
      · exfalso
        simp at h3
        apply h.tags i i0 hi hi0 hne hvi (hvalid i0 hi0)
        rw [hti, h3]
  · intro i hi
    have hlen : l.dropLast.length + 1 = l.length := by
      have := congrArg List.length hl
      simpa using this
    rw [hlen, ← h.len i hi]
    constructor
    · intro _; exact hvalid i hi
    · intro h'; exact Or.inr h'

theorem first_index_eq_some {n : Nat} {p : Nat → Bool} {i : Nat} (hi : i < n)
    (hp : p i = true) (hlt : ∀ j, j < i → p j = false) : first_index n p = some i := by
  obtain ⟨k, hk⟩ := first_index_exists hi hp
  obtain ⟨_, h2, h3⟩ := first_index_some hk
  have hki : k = i := by
    rcases Nat.lt_trichotomy k i with h | h | h
    · have := hlt k h
      simp [h2] at this
    · exact h
    · have := h3 i h
      simp [hp] at this
  rw [hk, hki]

theorem accesses_to_cons (k : Nat) (a : access) (rest : List access) :
    (accesses_to k (a :: rest) : Int) =
      (if a.set = k then 1 else 0) + (accesses_to k rest : Int) := by
  unfold accesses_to
  rw [List.countP_cons]
  by_cases h : a.set = k <;> simp [h]
  ring

theorem rd_set_same_set {b : List block_t} {k E i0 : Nat} (x : block_t)
    (hidx : k * E + i0 < b.length) (i : Nat) :
    rd (b.set (k * E + i0) x) (k * E + i) = if i = i0 then x else rd b (k * E + i) := by
  rw [rd_set]
  by_cases e : i = i0
  · simp [e, hidx]
  · have e2 : ¬ (k * E + i0 = k * E + i) := by omega
    simp [e, e2]

/-- One access to a set linked to its LRU list after `n` accesses: the simulator and the
reference model give the same outcome, and while the recency stamp does not overflow the
set, with the one line the access has written, is linked to the new list. -/
theorem set_step_sim {S E : Nat} {n : Int} {b : List block_t} {st : csim_stats_t}
    {r : Nat → List Int} {a : access} (hE : 1 ≤ E) (ha : a.set < S)
    (hlen : b.length = S * E)
    (hs : set_rel E n (fun i => rd b (a.set * E + i)) (r a.set)) :
    observe a.set E (b, st) (step E (b, st) a) = (lru_step E r a).2 ∧
    (n + 1 < 2 ^ 31 → ∃ i0 x, i0 < E ∧ (step E (b, st) a).1 = b.set (a.set * E + i0) x ∧
      set_rel E (n + 1) (fun i => if i = i0 then x else rd b (a.set * E + i))
        (lru_access E (r a.set) a.tag).1) := by
  obtain ⟨hbnd, ⟨jm, hjm, hmin⟩, ⟨jM, hjM, hmax⟩⟩ := order_bounds_spec a.set E b hE
  have hM0 : 0 ≤ (order_bounds a.set E b).2 := by rw [hmax]; exact hs.ord_lo jM hjM
  have hMn : (order_bounds a.set E b).2 ≤ n := by rw [hmax]; exact hs.ord_hi jM hjM
  have hw : n + 1 < 2 ^ 31 →
      wrap_int ((order_bounds a.set E b).2 + 1) = (order_bounds a.set E b).2 + 1 := by
    intro hn
    apply wrap_int_small <;> omega
  have hord : ∀ i, i < E →
      (rd b (a.set * E + i)).order < (order_bounds a.set E b).2 + 1 := by
    intro i hi
    have := (hbnd i hi).2
    omega
  rcases step_cases E b st a with
    ⟨i, hi, ⟨hv, ht⟩, _, heq⟩ | ⟨hno, i, hi, hv0, hfirst, heq⟩ |
    ⟨hno, hall, i, hi, him, _, heq⟩ | ⟨_, _, hnm, _⟩
  · have hacc := lru_hit hs hi hv ht
    rw [heq]
    constructor
    · simp [observe, hit_stat, lru_step, hacc]
    · intro hn
      refine ⟨i, hit_block a.is_load (order_bounds a.set E b).2 (rd b (a.set * E + i)), hi,
        rfl, ?_⟩
      rw [hacc]
      apply rel_hit hs hi hv ht
      · simpa [hit_block] using hv
      · simpa [hit_block] using ht
      · intro j hj
        simp only [hit_block, hw hn]
        exact hord j hj
      · simp only [hit_block, hw hn]
        omega
  · have hacc := lru_fill hs hno hi hv0
    rw [heq]
    constructor
    · simp [observe, fill_stat, lru_step, hacc]
    · intro hn
      refine ⟨i, fill_block a.is_load a.tag (order_bounds a.set E b).2
        (rd b (a.set * E + i)), hi, rfl, ?_⟩
      rw [hacc]
      apply rel_fill hs hno hi hv0 hfirst
      · simp [fill_block]
      · simp [fill_block]
      · intro j hj
        simp only [fill_block, hw hn]
        exact hord j hj
      · simp only [fill_block, hw hn]
        omega
  · have hmin' : ∀ j, j < E → (rd b (a.set * E + i)).order ≤ (rd b (a.set * E + j)).order := by
      intro j hj
      rw [him]
      exact (hbnd j hj).1
    have hvi : (rd b (a.set * E + i)).valid_bit = 1 := by
      rcases hs.valid01 i hi with h0 | h1
      · exact absurd h0 (hall i hi)
      · exact h1
    have hti : (rd b (a.set * E + i)).tag ≠ a.tag := fun e => hno i hi ⟨hvi, e⟩
    have hacc := lru_evict hs hno hall hi hmin'
    have hidx : a.set * E + i < b.length := by rw [hlen]; exact index_lt ha hi
    rw [heq]
    constructor
    · have hfi : first_index E (fun j =>
          decide ((rd (b.set (a.set * E + i)
            (evict_block a.is_load a.tag (order_bounds a.set E b).2 (rd b (a.set * E + i))))
              (a.set * E + j)).tag ≠ (rd b (a.set * E + j)).tag)) = some i := by
        apply first_index_eq_some hi
        · simp only [rd_set]
          simp [hidx, evict_block]
          exact fun e => hti e.symm
        · intro j hj
          have e3 : ¬ (a.set * E + i = a.set * E + j) := by omega
          simp [rd_set, e3]
      simp only [observe, lru_step, hacc]
      rw [hfi]
      simp [evict_stat]
    · intro hn
      refine ⟨i, evict_block a.is_load a.tag (order_bounds a.set E b).2
        (rd b (a.set * E + i)), hi, rfl, ?_⟩
      rw [hacc]
      apply rel_evict hs hno hall hi hmin'
      · simpa [evict_block] using hvi
      · simp [evict_block]
      · intro j hj
        simp only [evict_block, hw hn]
        exact hord j hj
      · simp only [evict_block, hw hn]
        omega
  · exact absurd hmin.symm (hnm jm hjm)

/-! ## Past the range of `int` -/

theorem outcomes_append (E : Nat) (t1 t2 : List access) :
    ∀ c, outcomes E c (t1 ++ t2) = outcomes E c t1 ++ outcomes E (replay E c t1) t2 := by
  induction t1 with
  | nil => intro c; rfl
  | cons a rest ih =>
    intro c
    show observe a.set E c (step E c a) :: outcomes E (step E c a) (rest ++ t2) =
      observe a.set E c (step E c a) ::
        (outcomes E (step E c a) rest ++ outcomes E (replay E (step E c a) rest) t2)
    rw [ih]

theorem lru_outcomes_append (E : Nat) (t1 t2 : List access) :
    ∀ r, lru_outcomes E r (t1 ++ t2) =
      lru_outcomes E r t1 ++ lru_outcomes E (lru_replay E r t1) t2 := by
  induction t1 with
  | nil => intro r; rfl
  | cons a rest ih =>
    intro r
    show (lru_step E r a).2 :: lru_outcomes E (lru_step E r a).1 (rest ++ t2) =
      (lru_step E r a).2 ::
        (lru_outcomes E (lru_step E r a).1 rest ++
          lru_outcomes E (lru_replay E (lru_step E r a).1 rest) t2)
    rw [ih]

theorem replay_append (E : Nat) (c : List block_t × csim_stats_t) (t1 t2 : List access) :
    replay E c (t1 ++ t2) = replay E (replay E c t1) t2 := by
  simp [replay, List.foldl_append]

theorem lru_replay_append (E : Nat) (r : Nat → List Int) (t1 t2 : List access) :
    lru_replay E r (t1 ++ t2) = lru_replay E (lru_replay E r t1) t2 := by
  simp [lru_replay, List.foldl_append]

/-- A hit on tag 0 in the set `[0 with order o, 1 with order 2]`, `o ≥ 2`. -/
theorem hit_loop_step (o : Int) (ho : 2 ≤ o) (st : csim_stats_t) :
    step 2 ([⟨1, 0, 0, o⟩, ⟨1, 0, 1, 2⟩], st) ⟨true, 0, 0⟩ =
      ([⟨1, 0, 0, wrap_int (o + 1)⟩, ⟨1, 0, 1, 2⟩], { st with hits := st.hits + 1 }) := by
  have h1 : ¬ o < 2 := by omega
  simp [step, eval_load, first_index_two, order_bounds_two, rd, h1]

theorem hit_loop (m : Nat) :
    ∀ (o : Int) (st : csim_stats_t), 2 ≤ o → o + (m : Int) < 2 ^ 31 →
      replay 2 ([⟨1, 0, 0, o⟩, ⟨1, 0, 1, 2⟩], st) (List.replicate m ⟨true, 0, 0⟩) =
        ([⟨1, 0, 0, o + m⟩, ⟨1, 0, 1, 2⟩], { st with hits := st.hits + m }) := by
  induction m with
  | zero => intro o st _ _; simp [replay]
  | succ m ih =>
    intro o st ho hm
    push_cast at hm
    rw [List.replicate_succ]
    simp only [replay, List.foldl_cons]
    rw [hit_loop_step o ho st, wrap_int_small (by omega) (by omega)]
    have := ih (o + 1) { st with hits := st.hits + 1 } (by omega) (by omega)
    simp only [replay] at this
    rw [this]
    push_cast
    simp only [add_assoc, add_comm (1 : Int)]

theorem lru_hit_loop (trace : List access) :
    ∀ r : Nat → List Int, r 0 = [0, 1] → (∀ a ∈ trace, a = ⟨true, 0, 0⟩) →
      lru_replay 2 r trace 0 = [0, 1] := by
  induction trace with
  | nil => intro r hr _; simpa [lru_replay] using hr
  | cons a rest ih =>
    intro r hr hall
    have ha : a = ⟨true, 0, 0⟩ := hall a (by simp)
    subst ha
    simp only [lru_replay, List.foldl_cons]
    apply ih
    · simp [lru_step, lru_access, hr]
    · intro a' ha'
      exact hall a' (by simp [ha'])

/-- The array after all of `overflow_trace` but its last access: the stamp of the line
holding tag 0 has wrapped around to the least `int`. -/
theorem overflow_state :
    (replay 2 (init_state 1 2)
      ([⟨true, 0, 0⟩, ⟨true, 1, 0⟩, ⟨true, 0, 0⟩] ++
        (List.replicate 2147483644 ⟨true, 0, 0⟩ ++ [⟨true, 0, 0⟩]))).1 =
      [⟨1, 0, 0, -2147483648⟩, ⟨1, 0, 1, 2⟩] := by
  have hP : replay 2 (init_state 1 2) [⟨true, 0, 0⟩, ⟨true, 1, 0⟩, ⟨true, 0, 0⟩] =
      ([⟨1, 0, 0, 3⟩, ⟨1, 0, 1, 2⟩], ⟨1, 2, 0, 0, 0⟩) := by decide
  rw [replay_append, replay_append, hP,
    hit_loop 2147483644 3 _ (by norm_num) (by norm_num)]
  simp only [replay, List.foldl_cons, List.foldl_nil]
  rw [hit_loop_step _ (by norm_num)]
  have hw : wrap_int ((3 : Int) + ((2147483644 : Nat) : Int) + 1) = -2147483648 := by
    norm_num [wrap_int]
  rw [hw]

theorem overflow_lru_state :
    lru_replay 2 lru_init
      ([⟨true, 0, 0⟩, ⟨true, 1, 0⟩, ⟨true, 0, 0⟩] ++
        (List.replicate 2147483644 ⟨true, 0, 0⟩ ++ [⟨true, 0, 0⟩])) 0 = [0, 1] := by
  rw [lru_replay_append]
  apply lru_hit_loop
  · decide
  · intro a ha
    rcases List.mem_append.mp ha with h | h
    · exact List.eq_of_mem_replicate h
    · exact List.mem_singleton.mp h

theorem overflow_last_code (st : csim_stats_t) :
    outcomes 2 ([⟨1, 0, 0, -2147483648⟩, ⟨1, 0, 1, 2⟩], st) [⟨true, 2, 0⟩] =
      [outcome.miss_evict (some 0)] := by
  simp [outcomes, observe, step, eval_load, first_index_two, order_bounds_two, rd]

theorem overflow_last_lru (r : Nat → List Int) (hr : r 0 = [0, 1]) :
    lru_outcomes 2 r [⟨true, 2, 0⟩] = [outcome.miss_evict (some 1)] := by
  simp [lru_outcomes, lru_step, lru_access, hr]

/-! ## Which path an access takes -/

theorem step_of_hit {E : Nat} {b : List block_t} {st : csim_stats_t} {a : access} {i : Nat}
    (hi : i < E)
    (hv : (rd b (a.set * E + i)).valid_bit = 1 ∧ (rd b (a.set * E + i)).tag = a.tag)
    (hfirst : ∀ j, j < i →
      ¬ ((rd b (a.set * E + j)).valid_bit = 1 ∧ (rd b (a.set * E + j)).tag = a.tag)) :
    step E (b, st) a =
      (b.set (a.set * E + i)
        (hit_block a.is_load (order_bounds a.set E b).2 (rd b (a.set * E + i))),
       hit_stat a.is_load (rd b (a.set * E + i)) st) := by
  rcases step_cases E b st a with
    ⟨i', hi', hv', hfirst', heq⟩ | ⟨hno, _⟩ | ⟨hno, _⟩ | ⟨hno, _⟩
  · have e : i' = i := by
      rcases Nat.lt_trichotomy i' i with h | h | h
      · exact absurd hv' (hfirst i' h)
      · exact h
      · exact absurd hv (hfirst' i h)
    subst e
    exact heq
  · exact absurd hv (hno i hi)
  · exact absurd hv (hno i hi)
  · exact absurd hv (hno i hi)

theorem step_of_fill {E : Nat} {b : List block_t} {st : csim_stats_t} {a : access} {i : Nat}
    (hno : ∀ j, j < E →
      ¬ ((rd b (a.set * E + j)).valid_bit = 1 ∧ (rd b (a.set * E + j)).tag = a.tag))
    (hi : i < E) (hv0 : (rd b (a.set * E + i)).valid_bit = 0)
    (hfirst : ∀ j, j < i → (rd b (a.set * E + j)).valid_bit ≠ 0) :
    step E (b, st) a =
      (b.set (a.set * E + i)
        (fill_block a.is_load a.tag (order_bounds a.set E b).2 (rd b (a.set * E + i))),
       fill_stat a.is_load st) := by
  rcases step_cases E b st a with
    ⟨i', hi', hv', _⟩ | ⟨_, i', hi', hv0', hfirst', heq⟩ | ⟨_, hall, _⟩ | ⟨_, hall, _⟩
  · exact absurd hv' (hno i' hi')
  · have e : i' = i := by
      rcases Nat.lt_trichotomy i' i with h | h | h
      · exact absurd hv0' (hfirst i' h)
      · exact h
      · exact absurd hv0 (hfirst' i h)
    subst e
    exact heq
  · exact absurd hv0 (hall i hi)
  · exact absurd hv0 (hall i hi)

theorem step_of_evict {E : Nat} {b : List block_t} {st : csim_stats_t} {a : access} {i : Nat}
    (hno : ∀ j, j < E →
      ¬ ((rd b (a.set * E + j)).valid_bit = 1 ∧ (rd b (a.set * E + j)).tag = a.tag))
    (hall : ∀ j, j < E → (rd b (a.set * E + j)).valid_bit ≠ 0)
    (hi : i < E) (hmin : (rd b (a.set * E + i)).order = (order_bounds a.set E b).1)
    (hfirst : ∀ j, j < i → (rd b (a.set * E + j)).order ≠ (order_bounds a.set E b).1) :
    step E (b, st) a =
      (b.set (a.set * E + i)
        (evict_block a.is_load a.tag (order_bounds a.set E b).2 (rd b (a.set * E + i))),
       evict_stat a.is_load (rd b (a.set * E + i)) st) := by
  rcases step_cases E b st a with
    ⟨i', hi', hv', _⟩ | ⟨_, i', hi', hv0', _⟩ | ⟨_, _, i', hi', hmin', hfirst', heq⟩ |
    ⟨_, _, hnm, _⟩
  · exact absurd hv' (hno i' hi')
  · exact absurd hv0' (hall i' hi')
  · have e : i' = i := by
      rcases Nat.lt_trichotomy i' i with h | h | h
      · exact absurd hmin' (hfirst i' h)
      · exact h
      · exact absurd hmin (hfirst' i h)
    subst e
    exact heq
  · exact absurd hmin (hnm i hi)

theorem step_of_none {E : Nat} {b : List block_t} {st : csim_stats_t} {a : access}
    (hno : ∀ j, j < E →
      ¬ ((rd b (a.set * E + j)).valid_bit = 1 ∧ (rd b (a.set * E + j)).tag = a.tag))
    (hall : ∀ j, j < E → (rd b (a.set * E + j)).valid_bit ≠ 0)
    (hnm : ∀ j, j < E → (rd b (a.set * E + j)).order ≠ (order_bounds a.set E b).1) :
    step E (b, st) a =
      (b, { st with misses := st.misses + 1, evictions := st.evictions + 1 }) := by
  rcases step_cases E b st a with
    ⟨i', hi', hv', _⟩ | ⟨_, i', hi', hv0', _⟩ | ⟨_, _, i', hi', hmin', _⟩ | ⟨_, _, _, heq⟩
  · exact absurd hv' (hno i' hi')
  · exact absurd hv0' (hall i' hi')
  · exact absurd hmin' (hnm i' hi')
  · exact heq

/-- An access writes at most one block, a line of the addressed set. -/
theorem step_writes_one (E : Nat) (b : List block_t) (st : csim_stats_t) (a : access) :
    (step E (b, st) a).1 = b ∨
      ∃ i x, i < E ∧ (step E (b, st) a).1 = b.set (a.set * E + i) x := by
  rcases step_cases E b st a with
    ⟨i, hi, _, _, heq⟩ | ⟨_, i, hi, _, _, heq⟩ | ⟨_, _, i, hi, _, _, heq⟩ | ⟨_, _, _, heq⟩
  · exact Or.inr ⟨i, _, hi, by rw [heq]⟩
  · exact Or.inr ⟨i, _, hi, by rw [heq]⟩
  · exact Or.inr ⟨i, _, hi, by rw [heq]⟩
  · exact Or.inl (by rw [heq])

/-- The lines of the sets that are not addressed stay as they are. -/
theorem step_frame {E : Nat} (b : List block_t) (st : csim_stats_t) (a : access) {j i : Nat}
    (hj : j ≠ a.set) (hi : i < E) :
    rd (step E (b, st) a).1 (j * E + i) = rd b (j * E + i) := by
  rcases step_writes_one E b st a with h | ⟨i0, x, hi0, h⟩
  · rw [h]
  · rw [h, rd_set]
    have e : ¬ (a.set * E + i0 = j * E + i) := fun e => hj (index_inj hi0 hi e).1.symm
    simp [e]

theorem step_length (E : Nat) (b : List block_t) (st : csim_stats_t) (a : access) :
    (step E (b, st) a).1.length = b.length := by
  rcases step_writes_one E b st a with h | ⟨i0, x, _, h⟩
  · rw [h]
  · rw [h, List.length_set]

/-! ## Recency stamps past the range of `int` -/

theorem stamp_wrap_state :
    (replay 2 (init_state 1 2) stamp_wrap_trace).1 =
      [⟨1, 0, 0, -2147483648⟩, ⟨1, 0, 1, 2⟩] := by
  unfold stamp_wrap_trace
  exact overflow_state

theorem tie_steps (st : csim_stats_t) :
    (replay 2 ([⟨1, 0, 0, 2147483647⟩, ⟨1, 0, 1, 2⟩], st) [⟨true, 1, 0⟩, ⟨true, 0, 0⟩]).1 =
      [⟨1, 0, 0, -2147483648⟩, ⟨1, 0, 1, -2147483648⟩] := by
  simp [replay, step, eval_load, first_index_two, order_bounds_two, rd, wrap_int]

theorem stamp_tie_state :
    (replay 2 (init_state 1 2) stamp_tie_trace).1 =
      [⟨1, 0, 0, -2147483648⟩, ⟨1, 0, 1, -2147483648⟩] := by
  unfold stamp_tie_trace
  have hP : replay 2 (init_state 1 2) [⟨true, 0, 0⟩, ⟨true, 1, 0⟩, ⟨true, 0, 0⟩] =
      ([⟨1, 0, 0, 3⟩, ⟨1, 0, 1, 2⟩], ⟨1, 2, 0, 0, 0⟩) := by decide
  have hnum : (3 : Int) + ((2147483644 : Nat) : Int) = 2147483647 := by norm_num
  rw [replay_append, replay_append, replay_append, hP,
    hit_loop 2147483644 3 _ (by norm_num) (by norm_num), hnum, ← replay_append]
  exact tie_steps _

theorem tie_evicts (st : csim_stats_t) :
    (step 2 ([⟨1, 0, 0, -2147483648⟩, ⟨1, 0, 1, -2147483648⟩], st) ⟨true, 2, 0⟩).1 =
      [⟨1, 0, 2, -2147483647⟩, ⟨1, 0, 1, -2147483648⟩] := by
  simp [step, eval_load, first_index_two, order_bounds_two, rd, wrap_int]

/-! ## Loads and stores differ in the dirty bookkeeping only -/

theorem order_bounds_congr {b b' : List block_t} (k E : Nat)
    (h : ∀ j, (rd b j).order = (rd b' j).order) : order_bounds k E b = order_bounds k E b' := by
  simp only [order_bounds, h]

theorem same_skeleton_set {b b' : List block_t} {st st' st1 st1' : csim_stats_t} {j : Nat}
    {x x' : block_t} (h : same_skeleton (b, st) (b', st'))
    (hv : x.valid_bit = x'.valid_bit) (ht : x.tag = x'.tag) (ho : x.order = x'.order)
    (h1 : st1.hits = st1'.hits) (h2 : st1.misses = st1'.misses)
    (h3 : st1.evictions = st1'.evictions) :
    same_skeleton (b.set j x, st1) (b'.set j x', st1') := by
  have hlen : b.length = b'.length := h.len
  refine ⟨by simpa using hlen, ?_, ?_, ?_, h1, h2, h3⟩
  · intro i
    simp only [rd_set, hlen]
    split
    · exact hv
    · exact h.valid i
  · intro i
    simp only [rd_set, hlen]
    split
    · exact ht
    · exact h.tag i
  · intro i
    simp only [rd_set, hlen]
    split
    · exact ho
    · exact h.order i

theorem same_skeleton_step {E : Nat} {c c' : List block_t × csim_stats_t} {a a' : access}
    (h : same_skeleton c c') (htag : a.tag = a'.tag) (hset : a.set = a'.set) :
    same_skeleton (step E c a) (step E c' a') := by
  obtain ⟨b, st⟩ := c
  obtain ⟨b', st'⟩ := c'
  have hv : ∀ j, (rd b j).valid_bit = (rd b' j).valid_bit := h.valid
  have ht : ∀ j, (rd b j).tag = (rd b' j).tag := h.tag
  have ho : ∀ j, (rd b j).order = (rd b' j).order := h.order
  have h1 : st.hits = st'.hits := h.hits
  have h2 : st.misses = st'.misses := h.misses
  have h3 : st.evictions = st'.evictions := h.evictions
  have hob : order_bounds a.set E b = order_bounds a'.set E b' := by
    rw [hset]; exact order_bounds_congr _ _ ho
  have hob' : order_bounds a.set E b = order_bounds a.set E b' := order_bounds_congr _ _ ho
  rcases step_cases E b st a with
    ⟨i, hi, hhit, hfirst, heq⟩ | ⟨hno, i, hi, hv0, hfirst, heq⟩ |
    ⟨hno, hall, i, hi, hmin, hfirst, heq⟩ | ⟨hno, hall, hnm, heq⟩
  · have heq' := @step_of_hit E b' st' a' i hi
      (by rw [← hset, ← htag, ← hv, ← ht]; exact hhit)
      (by intro j hj; rw [← hset, ← htag, ← hv, ← ht]; exact hfirst j hj)
    rw [heq, heq', ← hset]
    apply same_skeleton_set h
    · simp [hit_block, hv]
    · simp [hit_block, ht]
    · simp [hit_block, hob']
    · simp [hit_stat, h1]
    · simp [hit_stat, h2]
    · simp [hit_stat, h3]
  · have heq' := @step_of_fill E b' st' a' i
      (by intro j hj; rw [← hset, ← htag, ← hv, ← ht]; exact hno j hj) hi
      (by rw [← hset, ← hv]; exact hv0)
      (by intro j hj; rw [← hset, ← hv]; exact hfirst j hj)
    rw [heq, heq', ← hset]
    apply same_skeleton_set h
    · simp [fill_block]
    · simp [fill_block, htag]
    · simp [fill_block, hob']
    · simp [fill_stat, h1]
    · simp [fill_stat, h2]
    · simp [fill_stat, h3]
  · have heq' := @step_of_evict E b' st' a' i
      (by intro j hj; rw [← hset, ← htag, ← hv, ← ht]; exact hno j hj)
      (by intro j hj; rw [← hset, ← hv]; exact hall j hj) hi
      (by rw [← hob, ← hset, ← ho]; exact hmin)
      (by intro j hj; rw [← hob, ← hset, ← ho]; exact hfirst j hj)
    rw [heq, heq', ← hset]
    apply same_skeleton_set h
    · simp [evict_block, hv]
    · simp [evict_block, htag]
    · simp [evict_block, hob']
    · simp [evict_stat, h1]
    · simp [evict_stat, h2]
    · simp [evict_stat, h3]
  · have heq' := @step_of_none E b' st' a'
      (by intro j hj; rw [← hset, ← htag, ← hv, ← ht]; exact hno j hj)
      (by intro j hj; rw [← hset, ← hv]; exact hall j hj)
      (by intro j hj; rw [← hob, ← hset, ← ho]; exact hnm j hj)
    rw [heq, heq']
    exact ⟨h.len, hv, ht, ho, by simp [h1], by simp [h2], by simp [h3]⟩

theorem same_skeleton_replay (E : Nat) (tr : List access) :
    ∀ (tr' : List access) (c c' : List block_t × csim_stats_t), same_skeleton c c' →
      tr.map (fun a => (a.tag, a.set)) = tr'.map (fun a => (a.tag, a.set)) →
      same_skeleton (replay E c tr) (replay E c' tr') := by
  induction tr with
  | nil =>
    intro tr' c c' h hm
    cases tr' with
    | nil => simpa [replay] using h
    | cons a' rest' => simp at hm
  | cons a rest ih =>
    intro tr' c c' h hm
    cases tr' with
    | nil => simp at hm
    | cons a' rest' =>
      simp only [List.map_cons, List.cons.injEq, Prod.mk.injEq] at hm
      simp only [replay, List.foldl_cons]
      exact ih rest' _ _ (same_skeleton_step h hm.1.1 hm.1.2) hm.2

/-! ## `set_power` -/

theorem main_stats_eq (s E b : Nat) (trace : List trace_line) :
    main_stats s E b trace =
      { (main_run s E b trace).2 with
        dirty_bytes := (main_run s E b trace).2.dirty_bytes * (set_power b % 2 ^ 32),
        dirty_evictions := (main_run s E b trace).2.dirty_evictions * (set_power b % 2 ^ 32) } :=
  rfl

theorem set_power_succ (n : Nat) :
    set_power ((n + 1 : Nat) : Int) = wrap_int (set_power (n : Int) * 2) := by
  simp only [set_power, Int.toNat_ofNat, Function.iterate_succ_apply']

/-- Up to 30 doublings `set_power` is the power of 2. -/
theorem set_power_small (n : Nat) (h : n ≤ 30) : set_power (n : Int) = 2 ^ n := by
  induction n with
  | zero => simp [set_power]
  | succ n ih =>
    rw [set_power_succ, ih (by omega)]
    have h1 : (2 : Int) ^ n * 2 = 2 ^ (n + 1) := by ring
    have h2 : (2 : Int) ^ (n + 1) ≤ 2 ^ 30 := pow_two_le_int h
    have h3 : (0 : Int) < 2 ^ (n + 1) := by positivity
    rw [h1]
    apply wrap_int_small <;> omega

set_option maxRecDepth 100000 in
/-- From 32 doublings on `set_power` is 0. -/
theorem set_power_large (n : Nat) (h : 32 ≤ n) : set_power (n : Int) = 0 := by
  induction n with
  | zero => omega
  | succ n ih =>
    rw [set_power_succ]
    by_cases e : n = 31
    · subst e
      decide
    · rw [ih (by omega)]
      decide

set_option maxRecDepth 100000 in
/-- The factor `(unsigned)(long)byte_number` of `main` is `2 ^ b` exactly up to `b = 31`. -/
theorem scale_factor_small (b : Nat) (h : b ≤ 31) : set_power (b : Int) % 2 ^ 32 = 2 ^ b := by
  by_cases e : b = 31
  · subst e
    decide
  · rw [set_power_small b (by omega)]
    have h2 : (2 : Int) ^ b ≤ 2 ^ 30 := pow_two_le_int (by omega)
    have h3 : (0 : Int) < 2 ^ b := by positivity
    apply Int.emod_eq_of_lt <;> omega

/-! ## The trace loop of `main` as a replay of decoded accesses -/

theorem main_step_eq (s E b : Nat) (c : List block_t × csim_stats_t) (r : trace_line) :
    main_step s E b c r =
      step E c ⟨decide (r.access_type = 'L'), main_tag_num s b (wrap_long r.address),
        (main_set_num s b (wrap_long r.address)).toNat⟩ := by
  unfold main_step step
  by_cases h : r.access_type = 'L' <;> simp [h]

theorem main_run_eq_replay (s E b : Nat) (trace : List trace_line) :
    main_run s E b trace =
      replay E
        (List.replicate (bits_long (wrap_long (set_power s * E))) zero_block, init_stat)
        (trace.map (fun r => ⟨decide (r.access_type = 'L'),
          main_tag_num s b (wrap_long r.address),
          (main_set_num s b (wrap_long r.address)).toNat⟩)) := by
  unfold main_run replay
  rw [List.foldl_map]
  congr 1
  funext c r
  exact main_step_eq s E b c r

theorem array_size_eq (s E : Nat) (hs : s ≤ 30) (hE : E < 2 ^ 31) :
    bits_long (wrap_long (set_power s * E)) = 2 ^ s * E := by
  rw [set_power_small s hs]
  have h1 : (2 : Int) ^ s ≤ 2 ^ 30 := pow_two_le_int hs
  have h2 : (0 : Int) < 2 ^ s := by positivity
  have h3 : (E : Int) < 2 ^ 31 := by exact_mod_cast hE
  have h4 : (0 : Int) ≤ E := Int.ofNat_nonneg E
  have h5 : (2 : Int) ^ s * E ≤ 2 ^ 30 * 2 ^ 31 := by
    apply mul_le_mul h1 (le_of_lt h3) h4 (by positivity)
  have h6 : (0 : Int) ≤ 2 ^ s * E := by positivity
  rw [wrap_long_of_range (by omega) (by omega)]
  unfold bits_long
  rw [Int.emod_eq_of_lt h6 (by omega)]
  have h7 : ((2 : Int) ^ s * E) = ((2 ^ s * E : Nat) : Int) := by push_cast; ring
  rw [h7, Int.toNat_ofNat]

/-- Up to `b = 31` (and `s ≤ 30`) the `dirty_bytes` handed to `printSummary` is the number
of dirty lines at the end of the trace times `2 ^ b`. -/
theorem scaled_dirty_bytes (s E b : Nat) (trace : List trace_line) (hs : s ≤ 30)
    (hb : b ≤ 31) (hE : E < 2 ^ 31) :
    (main_stats s E b trace).dirty_bytes =
      (dirty_count (main_run s E b trace).1 : Int) * 2 ^ b := by
  rw [main_stats_eq]
  simp only
  rw [scale_factor_small b hb, main_run_eq_replay, array_size_eq s E hs hE]
  have hinit : (List.replicate (2 ^ s * E) zero_block, init_stat) = init_state (2 ^ s) E := rfl
  rw [hinit]
  have h := (@base_inv_replay (2 ^ s) E
    (trace.map (fun r => ⟨decide (r.access_type = 'L'),
      main_tag_num s b (wrap_long r.address),
      (main_set_num s b (wrap_long r.address)).toNat⟩)) _ (base_inv_init (2 ^ s) E)
    (by
      intro a ha
      obtain ⟨r, _, rfl⟩ := List.mem_map.mp ha
      simp only
      rw [main_set_num_eq s b (by omega)]
      have hp : (0 : Int) < 2 ^ s := by positivity
      have h1 := Int.emod_lt_of_pos (wrap_long r.address / 2 ^ b) hp
      have h2 := Int.emod_nonneg (wrap_long r.address / 2 ^ b) (ne_of_gt hp)
      have h3 : (((wrap_long r.address / 2 ^ b % 2 ^ s).toNat : Nat) : Int) < ((2 ^ s : Nat) : Int) := by
        rw [Int.toNat_of_nonneg h2]
        push_cast
        exact h1
      exact_mod_cast h3)).dirty
  rw [h]

/-! ## Recency stamps, set by set -/

/-- A line that is invalid after an access has not been written by it: every block an
access writes has a `valid_bit` other than 0. -/
theorem step_invalid_unchanged (E : Nat) (b : List block_t) (st : csim_stats_t) (a : access)
    (j : Nat) (hv : (rd (step E (b, st) a).1 j).valid_bit = 0) :
    rd (step E (b, st) a).1 j = rd b j := by
  have key : ∀ (idx : Nat) (x : block_t), x.valid_bit ≠ 0 →
      (step E (b, st) a).1 = b.set idx x → rd (step E (b, st) a).1 j = rd b j := by
    intro idx x hx heq
    rw [heq, rd_set] at hv
    rw [heq, rd_set]
    by_cases c : idx = j ∧ idx < b.length
    · rw [if_pos c] at hv
      exact absurd hv hx
    · rw [if_neg c]
  rcases step_cases E b st a with
    ⟨i, _, ⟨hv1, _⟩, _, heq⟩ | ⟨_, i, _, _, _, heq⟩ | ⟨_, hall, i, hi, _, _, heq⟩ |
    ⟨_, _, _, heq⟩
  · exact key _ (hit_block a.is_load (order_bounds a.set E b).2 (rd b (a.set * E + i)))
      (by simp [hit_block, hv1]) (by rw [heq])
  · exact key _ (fill_block a.is_load a.tag (order_bounds a.set E b).2 (rd b (a.set * E + i)))
      (by simp [fill_block]) (by rw [heq])
  · exact key _ (evict_block a.is_load a.tag (order_bounds a.set E b).2 (rd b (a.set * E + i)))
      (by simpa [evict_block] using hall i hi) (by rw [heq])
  · rw [heq]

/-- An invalid line has order 0, whatever the trace: a line is stamped only when it is
written, and a written line is not invalid. -/
theorem invalid_order_zero (E : Nat) (trace : List access) :
    ∀ (c : List block_t × csim_stats_t),
      (∀ j, (rd c.1 j).valid_bit = 0 → (rd c.1 j).order = 0) →
      ∀ j, (rd (replay E c trace).1 j).valid_bit = 0 → (rd (replay E c trace).1 j).order = 0 := by
  induction trace with
  | nil => intro c h j hv; exact h j hv
  | cons a rest ih =>
    intro c h
    obtain ⟨b, st⟩ := c
    apply ih (step E (b, st) a)
    intro j hv
    have e := step_invalid_unchanged E b st a j hv
    rw [e] at hv ⊢
    exact h j hv

theorem set_stamps_congr {E : Nat} {n : Int} {f g : Nat → block_t}
    (hfg : ∀ i, i < E → f i = g i) (h : set_stamps E n f) : set_stamps E n g := by
  refine ⟨?_, ?_, ?_, ?_, ?_⟩
  · intro i hi; rw [← hfg i hi]; exact h.lo i hi
  · intro i hi; rw [← hfg i hi]; exact h.hi i hi
  · intro i hi; rw [← hfg i hi]; exact h.invalid i hi
  · intro i hi; rw [← hfg i hi]; exact h.valid i hi
  · intro i j hi hj; rw [← hfg i hi, ← hfg j hj]; exact h.distinct i j hi hj

theorem set_stamps_weak_congr {E : Nat} {f g : Nat → block_t}
    (hfg : ∀ i, i < E → f i = g i) (h : set_stamps_weak E f) : set_stamps_weak E g := by
  refine ⟨?_, ?_, ?_⟩
  · intro i hi; rw [← hfg i hi]; exact h.invalid i hi
  · intro i hi; rw [← hfg i hi]; exact h.valid i hi
  · intro i j hi hj; rw [← hfg i hi, ← hfg j hj]; exact h.distinct i j hi hj

theorem set_stamps_weaken {E : Nat} {n : Int} {f : Nat → block_t} (h : set_stamps E n f) :
    set_stamps_weak E f :=
  ⟨h.invalid, fun i hi hv => by have := h.valid i hi hv; omega, h.distinct⟩

/-- Line `i0` is overwritten by a block that is not invalid and carries an order, other
than 0, that no other line of the set carries. -/
theorem set_stamps_weak_touch {E : Nat} {n : Int} {f : Nat → block_t} {i0 : Nat}
    {x : block_t} (h : set_stamps E n f) (hxv : x.valid_bit ≠ 0) (hx0 : x.order ≠ 0)
    (hfresh : ∀ i, i < E → i ≠ i0 → (f i).order ≠ x.order) :
    set_stamps_weak E (fun i => if i = i0 then x else f i) := by
  refine ⟨?_, ?_, ?_⟩
  · intro i hi hv
    by_cases e : i = i0
    · simp only [e, if_true] at hv
      exact absurd hv hxv
    · simp only [e, if_false] at hv ⊢
      exact h.invalid i hi hv
  · intro i hi hv
    by_cases e : i = i0
    · simp only [e, if_true]
      exact hx0
    · simp only [e, if_false] at hv ⊢
      have := h.valid i hi hv
      omega
  · intro i j hi hj hij hvi hvj
    by_cases e : i = i0
    · have e' : ¬ j = i0 := fun e' => hij (e.trans e'.symm)
      simp only [e, e', if_true, if_false] at hvi hvj ⊢
      exact (hfresh j hj e').symm
    · by_cases e' : j = i0
      · simp only [e, e', if_true, if_false] at hvi hvj ⊢
        exact hfresh i hi e
      · simp only [e, e', if_false] at hvi hvj ⊢
        exact h.distinct i j hi hj hij hvi hvj

/-- Line `i0` is overwritten by a block that is not invalid and carries the order `M + 1`,
`M` an upper bound of the orders of the set. -/
theorem set_stamps_touch {E : Nat} {n : Int} {f : Nat → block_t} {i0 : Nat} {x : block_t}
    {M : Int} (h : set_stamps E n f) (hxv : x.valid_bit ≠ 0)
    (hM : ∀ i, i < E → (f i).order ≤ M) (hM0 : 0 ≤ M) (hMn : M ≤ n) (hx : x.order = M + 1) :
    set_stamps E (n + 1) (fun i => if i = i0 then x else f i) := by
  have hw := @set_stamps_weak_touch E n f i0 x h hxv (by omega) (by
    intro i hi _
    have := hM i hi
    omega)
  refine ⟨?_, ?_, hw.invalid, ?_, hw.distinct⟩
  · intro i hi
    by_cases e : i = i0
    · simp only [e, if_true]; omega
    · simp only [e, if_false]; exact h.lo i hi
  · intro i hi
    by_cases e : i = i0
    · simp only [e, if_true]; omega
    · simp only [e, if_false]
      have := h.hi i hi
      omega
  · intro i hi hv
    by_cases e : i = i0
    · simp only [e, if_true]; omega
    · simp only [e, if_false] at hv ⊢
      exact h.valid i hi hv

/-- The block an access writes: not invalid, stamped `wrap_int (max_order + 1)`, where
`max_order` lies between 0 and the number of accesses the set has received. -/
theorem set_touch {E : Nat} {n : Int} {b : List block_t} (st : csim_stats_t) {a : access}
    (hE : 1 ≤ E) (h : set_stamps E n (fun i => rd b (a.set * E + i))) :
    0 ≤ (order_bounds a.set E b).2 ∧ (order_bounds a.set E b).2 ≤ n ∧
    (∀ i, i < E → (rd b (a.set * E + i)).order ≤ (order_bounds a.set E b).2) ∧
    ∃ i0 x, i0 < E ∧ x.valid_bit ≠ 0 ∧
      x.order = wrap_int ((order_bounds a.set E b).2 + 1) ∧
      (step E (b, st) a).1 = b.set (a.set * E + i0) x := by
  obtain ⟨hbnd, ⟨jm, hjm, hmin⟩, ⟨jM, hjM, hmax⟩⟩ := order_bounds_spec a.set E b hE
  refine ⟨?_, ?_, fun i hi => (hbnd i hi).2, ?_⟩
  · rw [hmax]; exact h.lo jM hjM
  · rw [hmax]; exact h.hi jM hjM
  · rcases step_cases E b st a with
      ⟨i, hi, ⟨hv, _⟩, _, heq⟩ | ⟨_, i, hi, _, _, heq⟩ | ⟨_, hall, i, hi, _, _, heq⟩ |
      ⟨_, _, hnm, _⟩
    · exact ⟨i, hit_block a.is_load (order_bounds a.set E b).2 (rd b (a.set * E + i)), hi,
        by simp [hit_block, hv], by simp [hit_block], by rw [heq]⟩
    · exact ⟨i, fill_block a.is_load a.tag (order_bounds a.set E b).2 (rd b (a.set * E + i)),
        hi, by simp [fill_block], by simp [fill_block], by rw [heq]⟩
    · exact ⟨i, evict_block a.is_load a.tag (order_bounds a.set E b).2 (rd b (a.set * E + i)),
        hi, by simpa [evict_block] using hall i hi, by simp [evict_block], by rw [heq]⟩
    · exact absurd hmin.symm (hnm jm hjm)

theorem stamps_ok_init (S E : Nat) : stamps_ok S E (fun _ => 0) (init_cache S E) := by
  refine ⟨by simp [init_cache], ?_, ?_⟩
  · intro k _ _
    refine ⟨?_, ?_, ?_, ?_, ?_⟩ <;> simp [rd_init, zero_block]
  · intro k _ h
    norm_num at h

theorem stamps_ok_step {S E : Nat} {cnt : Nat → Int} {b : List block_t}
    (st : csim_stats_t) {a : access} (hE : 1 ≤ E) (ha : a.set < S)
    (h : stamps_ok S E cnt b) :
    stamps_ok S E (fun k => cnt k + if a.set = k then 1 else 0) (step E (b, st) a).1 := by
  have hlen : b.length = S * E := h.len
  refine ⟨by rw [step_length, hlen], ?_, ?_⟩
  · intro k hk hc
    by_cases e : a.set = k
    · subst e
      simp only [if_true] at hc ⊢
      have hs := h.below a.set ha (by omega)
      obtain ⟨hM0, hMn, hM, i0, x, hi0, hxv, hx, heq⟩ := set_touch st hE hs
      rw [wrap_int_small (by omega) (by omega)] at hx
      have hidx : a.set * E + i0 < b.length := by rw [hlen]; exact index_lt ha hi0
      refine set_stamps_congr ?_ (@set_stamps_touch _ _ _ i0 _ _ hs hxv hM hM0 hMn hx)
      intro i _
      rw [heq, rd_set_same_set x hidx]
    · simp only [e, if_false, add_zero] at hc ⊢
      refine set_stamps_congr ?_ (h.below k hk hc)
      intro i hi
      rw [step_frame b st a (fun h => e h.symm) hi]
  · intro k hk hc
    by_cases e : a.set = k
    · subst e
      simp only [if_true] at hc
      have hs := h.below a.set ha (by omega)
      obtain ⟨hM0, hMn, hM, i0, x, hi0, hxv, hx, heq⟩ := set_touch st hE hs
      have hidx : a.set * E + i0 < b.length := by rw [hlen]; exact index_lt ha hi0
      have hx0 : x.order ≠ 0 := by
        rw [hx]; unfold wrap_int; omega
      have hfresh : ∀ i, i < E → i ≠ i0 → (rd b (a.set * E + i)).order ≠ x.order := by
        intro i hi _
        have h1 := hM i hi
        have h2 := hs.lo i hi
        simp only at h2
        rw [hx]
        unfold wrap_int
        omega
      refine set_stamps_weak_congr ?_ (@set_stamps_weak_touch _ _ _ i0 _ hs hxv hx0 hfresh)
      intro i _
      rw [heq, rd_set_same_set x hidx]
    · simp only [e, if_false, add_zero] at hc
      refine set_stamps_weak_congr ?_ (h.at_limit k hk hc)
      intro i hi
      rw [step_frame b st a (fun h => e h.symm) hi]

theorem stamps_ok_replay {S E : Nat} (hE : 1 ≤ E) (trace : List access) :
    ∀ (c : List block_t × csim_stats_t) (cnt : Nat → Int), stamps_ok S E cnt c.1 →
      (∀ a ∈ trace, a.set < S) →
      stamps_ok S E (fun k => cnt k + (accesses_to k trace : Int)) (replay E c trace).1 := by
  induction trace with
  | nil =>
    intro c cnt h _
    simpa [replay, accesses_to] using h
  | cons a rest ih =>
    intro c cnt h hset
    obtain ⟨b, st⟩ := c
    have h1 := stamps_ok_step st hE (hset a (by simp)) h
    have h2 := ih (step E (b, st) a) _ h1 (fun a' ha' => hset a' (by simp [ha']))
    have e : (fun k => cnt k + (accesses_to k (a :: rest) : Int)) =
        (fun k => cnt k + (if a.set = k then 1 else 0) + (accesses_to k rest : Int)) := by
      funext k
      rw [accesses_to_cons]
      ring
    rw [e]
    exact h2

/-- The stamps of a set that has received at most `2 ^ 31` accesses. -/
theorem stamps_of_trace {S E : Nat} (hE : 1 ≤ E) (trace : List access)
    (hset : ∀ a ∈ trace, a.set < S) {k : Nat} (hk : k < S)
    (hcnt : accesses_to k trace ≤ 2 ^ 31) :
    set_stamps_weak E (fun i => rd (replay E (init_state S E) trace).1 (k * E + i)) := by
  have h := stamps_ok_replay hE trace (init_state S E) (fun _ => 0) (stamps_ok_init S E) hset
  have hc : (accesses_to k trace : Int) ≤ 2 ^ 31 := by exact_mod_cast hcnt
  rcases lt_or_eq_of_le hc with h1 | h1
  · exact set_stamps_weaken (h.below k hk (by simpa using h1))
  · exact h.at_limit k hk (by simpa using h1)

/-- The stamps of a state reached from the freshly initialised cache (at least one line
per set, set indices in range): every invalid line has order 0 and `dirty_bit` 0; and in a
set that has received fewer than `2 ^ 31` accesses the valid lines have pairwise distinct
orders, all at least 1, so that, when the set is full, exactly one line has order equal to
`min_order` and the lowest-index tie-break of the eviction scan does not decide the
victim. -/
theorem stamps_of_reachable_states (S E : Nat) (trace : List access) (hE : 1 ≤ E)
    (hset : ∀ a ∈ trace, a.set < S) :
    (∀ k i, k < S → i < E →
      (rd (replay E (init_state S E) trace).1 (k * E + i)).valid_bit = 0 →
      (rd (replay E (init_state S E) trace).1 (k * E + i)).order = 0 ∧
      (rd (replay E (init_state S E) trace).1 (k * E + i)).dirty_bit = 0) ∧
    (∀ k, k < S → accesses_to k trace < 2 ^ 31 →
      (∀ i, i < E → (rd (replay E (init_state S E) trace).1 (k * E + i)).valid_bit = 1 →
        1 ≤ (rd (replay E (init_state S E) trace).1 (k * E + i)).order) ∧
      (∀ i j, i < E → j < E → i ≠ j →
        (rd (replay E (init_state S E) trace).1 (k * E + i)).valid_bit = 1 →
        (rd (replay E (init_state S E) trace).1 (k * E + j)).valid_bit = 1 →
        (rd (replay E (init_state S E) trace).1 (k * E + i)).order ≠
          (rd (replay E (init_state S E) trace).1 (k * E + j)).order) ∧
      ((∀ i, i < E → (rd (replay E (init_state S E) trace).1 (k * E + i)).valid_bit = 1) →
        ∃ i, i < E ∧
          (rd (replay E (init_state S E) trace).1 (k * E + i)).order =
            (order_bounds k E (replay E (init_state S E) trace).1).1 ∧
          ∀ j, j < E →
            (rd (replay E (init_state S E) trace).1 (k * E + j)).order =
              (order_bounds k E (replay E (init_state S E) trace).1).1 → j = i)) := by
  have hz : ∀ j, (rd (replay E (init_state S E) trace).1 j).valid_bit = 0 →
      (rd (replay E (init_state S E) trace).1 j).order = 0 :=
    invalid_order_zero E trace (init_state S E) (fun j _ => by
      show (rd (init_cache S E) j).order = 0
      rw [rd_init]
      rfl)
  have hb := base_inv_replay trace _ (base_inv_init S E) hset
  refine ⟨fun k i hk hi hv => ⟨hz _ hv, (hb.bits _ (index_lt hk hi)).2.2 hv⟩, ?_⟩
  intro k hk hcnt
  have h0 := stamps_ok_replay hE trace (init_state S E) (fun _ => 0) (stamps_ok_init S E) hset
  have hc : (accesses_to k trace : Int) < 2 ^ 31 := by exact_mod_cast hcnt
  have h := h0.below k hk (by simpa using hc)
  generalize replay E (init_state S E) trace = c at h
  refine ⟨h.valid, h.distinct, ?_⟩
  intro hfull
  obtain ⟨_, ⟨jm, hjm, hmin⟩, _⟩ := order_bounds_spec k E c.1 hE
  refine ⟨jm, hjm, hmin.symm, ?_⟩
  intro j hj hjmin
  by_contra hne
  exact h.distinct j jm hj hjm hne (hfull j hj) (hfull jm hjm) (by rw [hjmin, hmin])

/-! ## Refinement of the reference LRU model, set by set -/

theorem lru_inv_init (S E : Nat) : lru_inv S E (fun _ => 0) (init_cache S E) lru_init := by
  refine ⟨by simp [init_cache], ?_⟩
  intro k _ _
  refine ⟨?_, ?_, ?_, ?_, ?_, ?_, ?_, ?_⟩ <;> simp [rd_init, zero_block, lru_init]

/-- One access to a set that has received fewer than `2 ^ 31` accesses: the simulator and
the reference model give the same outcome, and the simulation relation holds again
afterwards, with one access more counted for the set. -/
theorem lru_step_sim {S E : Nat} {cnt : Nat → Int} {b : List block_t} {st : csim_stats_t}
    {r : Nat → List Int} {a : access} (hE : 1 ≤ E) (ha : a.set < S)
    (h : lru_inv S E cnt b r) (hc : cnt a.set < 2 ^ 31) :
    observe a.set E (b, st) (step E (b, st) a) = (lru_step E r a).2 ∧
    lru_inv S E (fun k => cnt k + if a.set = k then 1 else 0) (step E (b, st) a).1
      (lru_step E r a).1 := by
  have hlen : b.length = S * E := h.len
  obtain ⟨hout, hnext⟩ := @set_step_sim S E (cnt a.set) b st r a hE ha hlen (h.sets a.set ha hc)
  refine ⟨hout, by rw [step_length, hlen], ?_⟩
  intro k hk hck
  by_cases e : a.set = k
  · subst e
    simp only [if_true] at hck ⊢
    obtain ⟨i0, x, hi0, heq, hrel⟩ := hnext hck
    have hidx : a.set * E + i0 < b.length := by rw [hlen]; exact index_lt ha hi0
    simp only [lru_step, Function.update_same]
    refine set_rel_congr ?_ hrel
    intro i _
    rw [heq, rd_set_same_set x hidx]
  · simp only [e, if_false, add_zero] at hck ⊢
    simp only [lru_step]
    rw [Function.update_noteq (fun h => e h.symm)]
    refine set_rel_congr ?_ (h.sets k hk hck)
    intro i hi
    rw [step_frame b st a (fun h => e h.symm) hi]

theorem outcomes_sim {S E : Nat} (hE : 1 ≤ E) (trace : List access) :
    ∀ (c : List block_t × csim_stats_t) (r : Nat → List Int) (cnt : Nat → Int),
      lru_inv S E cnt c.1 r →
      (∀ k, k < S → cnt k + (accesses_to k trace : Int) ≤ 2 ^ 31) →
      (∀ a ∈ trace, a.set < S) → outcomes E c trace = lru_outcomes E r trace := by
  induction trace with
  | nil => intro c r cnt _ _ _; rfl
  | cons a rest ih =>
    intro c r cnt hinv hcnt hset
    obtain ⟨b, st⟩ := c
    have ha : a.set < S := hset a (by simp)
    have hc : cnt a.set < 2 ^ 31 := by
      have h1 := hcnt a.set ha
      rw [accesses_to_cons, if_pos rfl] at h1
      have h2 : (0 : Int) ≤ (accesses_to a.set rest : Int) := Int.ofNat_nonneg _
      omega
    obtain ⟨hout, hnext⟩ := @lru_step_sim S E cnt b st r a hE ha hinv hc
    simp only [outcomes, lru_outcomes]
    rw [hout]
    congr 1
    apply ih _ _ _ hnext
    · intro k hk
      have h1 := hcnt k hk
      rw [accesses_to_cons] at h1
      omega
    · intro a' ha'
      exact hset a' (by simp [ha'])

/-- Refinement of the reference LRU model, set by set: for every geometry with at least
one line per set and every trace (set indices in range) in which no set receives more than
`2 ^ 31` accesses, replayed from the freshly initialised cache, the outcome of each
`eval_load` / `eval_store` call (hit, miss with fill, miss evicting tag `t`) is the outcome
of the reference LRU model. -/
theorem lru_refinement (S E : Nat) (trace : List access) (hE : 1 ≤ E)
    (hset : ∀ a ∈ trace, a.set < S) (hcnt : ∀ k, k < S → accesses_to k trace ≤ 2 ^ 31) :
    outcomes E (init_state S E) trace = lru_outcomes E lru_init trace := by
  apply outcomes_sim hE trace (init_state S E) lru_init (fun _ => 0) (lru_inv_init S E) _ hset
  intro k hk
  have h : (accesses_to k trace : Int) ≤ 2 ^ 31 := by exact_mod_cast hcnt k hk
  simpa using h

/-! ## Claims -/

/-- C1: the outcomes of `eval_load` / `eval_store` are not those of the reference LRU model
on every trace.  On `overflow_trace` (two lines, one set, `2 ^ 31 + 1` loads) the two
outcome lists differ: after `2 ^ 31` accesses the stamp `max_order + 1` has left the range
of `int`, the line just hit carries the least order, and the final miss evicts tag 0, the
most recently used one, where the reference model evicts tag 1, the least recently used
one. -/
theorem lru_outcomes_differ_after_order_overflow :
    outcomes 2 (init_state 1 2) overflow_trace ≠ lru_outcomes 2 lru_init overflow_trace ∧
    (outcomes 2 (init_state 1 2) overflow_trace).getLast? =
      some (outcome.miss_evict (some 0)) ∧
    (lru_outcomes 2 lru_init overflow_trace).getLast? =
      some (outcome.miss_evict (some 1)) := by
  unfold overflow_trace
  rw [outcomes_append, lru_outcomes_append]
  have hc := overflow_state
  have hr := overflow_lru_state
  generalize replay 2 (init_state 1 2)
    ([⟨true, 0, 0⟩, ⟨true, 1, 0⟩, ⟨true, 0, 0⟩] ++
      (List.replicate 2147483644 ⟨true, 0, 0⟩ ++ [⟨true, 0, 0⟩])) = c at hc ⊢
  generalize lru_replay 2 lru_init
    ([⟨true, 0, 0⟩, ⟨true, 1, 0⟩, ⟨true, 0, 0⟩] ++
      (List.replicate 2147483644 ⟨true, 0, 0⟩ ++ [⟨true, 0, 0⟩])) = r at hr ⊢
  obtain ⟨b, st⟩ := c
  simp only at hc
  subst hc
  rw [overflow_last_code, overflow_last_lru r hr]
  generalize outcomes 2 (init_state 1 2)
    ([⟨true, 0, 0⟩, ⟨true, 1, 0⟩, ⟨true, 0, 0⟩] ++
      (List.replicate 2147483644 ⟨true, 0, 0⟩ ++ [⟨true, 0, 0⟩])) = X
  generalize lru_outcomes 2 lru_init
    ([⟨true, 0, 0⟩, ⟨true, 1, 0⟩, ⟨true, 0, 0⟩] ++
      (List.replicate 2147483644 ⟨true, 0, 0⟩ ++ [⟨true, 0, 0⟩])) = Y
  refine ⟨?_, List.getLast?_concat X, List.getLast?_concat Y⟩
  intro heq
  have h2 := (List.append_inj' heq rfl).2
  simp at h2

/-- C2: in every state reached from the freshly initialised cache by a sequence of
`eval_load` / `eval_store` calls (at least one line per set, set indices in range), the
unscaled `dirty_bytes` equals the number of lines of the whole array whose `dirty_bit`
is 1, and so it is never negative. -/
theorem dirty_bytes_counts_dirty_lines (S E : Nat) (trace : List access)
    (hset : ∀ a ∈ trace, a.set < S) :
    (replay E (init_state S E) trace).2.dirty_bytes =
        (dirty_count (replay E (init_state S E) trace).1 : Int) ∧
      0 ≤ (replay E (init_state S E) trace).2.dirty_bytes := by
  have h := (base_inv_replay trace _ (base_inv_init S E) hset).dirty
  exact ⟨h, by rw [h]; exact Int.ofNat_nonneg _⟩

theorem dirty_bytes_counts_dirty_lines_witness :
    (replay 2 (init_state 2 2)
        [⟨false, 5, 1⟩, ⟨true, 6, 1⟩, ⟨true, 7, 1⟩, ⟨false, 5, 0⟩]).2.dirty_bytes =
        (dirty_count (replay 2 (init_state 2 2)
          [⟨false, 5, 1⟩, ⟨true, 6, 1⟩, ⟨true, 7, 1⟩, ⟨false, 5, 0⟩]).1 : Int) ∧
      0 ≤ (replay 2 (init_state 2 2)
        [⟨false, 5, 1⟩, ⟨true, 6, 1⟩, ⟨true, 7, 1⟩, ⟨false, 5, 0⟩]).2.dirty_bytes :=
  dirty_bytes_counts_dirty_lines 2 2
    [⟨false, 5, 1⟩, ⟨true, 6, 1⟩, ⟨true, 7, 1⟩, ⟨false, 5, 0⟩] (by decide)

/-- C3: each `eval_load` / `eval_store` call increases exactly one of `hits` and `misses`,
by exactly 1, and after a trace of `n` accesses replayed from the freshly initialised
cache `hits + misses = n`. -/
theorem hits_plus_misses_eq_length (S E : Nat) (trace : List access) :
    (∀ (c : List block_t × csim_stats_t) (a : access),
      ((step E c a).2.hits = c.2.hits + 1 ∧ (step E c a).2.misses = c.2.misses) ∨
      ((step E c a).2.hits = c.2.hits ∧ (step E c a).2.misses = c.2.misses + 1)) ∧
    (replay E (init_state S E) trace).2.hits + (replay E (init_state S E) trace).2.misses =
      (trace.length : Int) := by
  refine ⟨step_hits_misses E, ?_⟩
  rw [replay_hits_misses]
  simp [init_state, init_stat]

/-- C4: in a state reached from the freshly initialised cache, a call on a set in range
increments `evictions` by exactly 1 when no valid line of the set holds the tag and
all `E` lines of the set have `valid_bit = 1`, and leaves `evictions` unchanged
otherwise. -/
theorem evictions_iff_miss_in_full_set (S E : Nat) (trace : List access) (a : access)
    (hset : ∀ a' ∈ trace, a'.set < S) (ha : a.set < S) :
    let c := replay E (init_state S E) trace
    let miss := ∀ j, j < E →
      ¬ ((rd c.1 (a.set * E + j)).valid_bit = 1 ∧ (rd c.1 (a.set * E + j)).tag = a.tag)
    let full := ∀ j, j < E → (rd c.1 (a.set * E + j)).valid_bit = 1
    ((miss ∧ full) → (step E c a).2.evictions = c.2.evictions + 1) ∧
    (¬ (miss ∧ full) → (step E c a).2.evictions = c.2.evictions) := by
  intro c miss full
  have hinv : base_inv S E c := base_inv_replay trace _ (base_inv_init S E) hset
  have hc : c = (c.1, c.2) := rfl
  rcases step_cases E c.1 c.2 a with
    ⟨i, hi, hhit, _, heq⟩ | ⟨hno, i, hi, hiv, _, heq⟩ | ⟨hno, hnv, i, hi, _, _, heq⟩ |
    ⟨hno, hnv, _, heq⟩
  · constructor
    · intro h
      exact absurd hhit (h.1 i hi)
    · intro _
      rw [hc, heq]
      simp [hit_stat]
  · constructor
    · intro h
      have := h.2 i hi
      omega
    · intro _
      rw [hc, heq]
      simp [fill_stat]
  · constructor
    · intro _
      rw [hc, heq]
      simp [evict_stat]
    · intro h
      exfalso
      apply h
      refine ⟨hno, ?_⟩
      intro j hj
      rcases (hinv.bits (a.set * E + j) (index_lt ha hj)).1 with h0 | h0
      · exact absurd h0 (hnv j hj)
      · exact h0
  · constructor
    · intro _
      rw [hc, heq]
    · intro h
      exfalso
      apply h
      refine ⟨hno, ?_⟩
      intro j hj
      rcases (hinv.bits (a.set * E + j) (index_lt ha hj)).1 with h0 | h0
      · exact absurd h0 (hnv j hj)
      · exact h0

theorem evictions_iff_miss_in_full_set_witness :
    (step 1 (replay 1 (init_state 1 1) [⟨true, 0, 0⟩]) ⟨false, 1, 0⟩).2.evictions =
      (replay 1 (init_state 1 1) [⟨true, 0, 0⟩]).2.evictions + 1 :=
  (evictions_iff_miss_in_full_set 1 1 [⟨true, 0, 0⟩] ⟨false, 1, 0⟩ (by decide) (by decide)).1
    ⟨by decide, by decide⟩

/-- C5: in every state reached from the freshly initialised cache by a sequence of
`eval_load` / `eval_store` calls, no two distinct lines of one set with `valid_bit = 1`
hold the same tag. -/
theorem valid_tags_distinct (S E : Nat) (trace : List access)
    (hset : ∀ a ∈ trace, a.set < S) (k i j : Nat) (hk : k < S) (hi : i < E) (hj : j < E)
    (hij : i ≠ j)
    (hvi : (rd (replay E (init_state S E) trace).1 (k * E + i)).valid_bit = 1)
    (hvj : (rd (replay E (init_state S E) trace).1 (k * E + j)).valid_bit = 1) :
    (rd (replay E (init_state S E) trace).1 (k * E + i)).tag ≠
      (rd (replay E (init_state S E) trace).1 (k * E + j)).tag :=
  (base_inv_replay trace _ (base_inv_init S E) hset).tags k i j hk hi hj hij hvi hvj

theorem valid_tags_distinct_witness :
    (rd (replay 2 (init_state 1 2) [⟨true, 5, 0⟩, ⟨false, 6, 0⟩]).1 (0 * 2 + 0)).tag ≠
      (rd (replay 2 (init_state 1 2) [⟨true, 5, 0⟩, ⟨false, 6, 0⟩]).1 (0 * 2 + 1)).tag :=
  valid_tags_distinct 1 2 [⟨true, 5, 0⟩, ⟨false, 6, 0⟩] (by decide) 0 0 1 (by decide)
    (by decide) (by decide) (by decide) (by decide) (by decide)

/-- C6: the tag the decoder computes is not address bits `[b+s, 64)`: with `s = b = 4`
the address `0x8000000000000000` gets tag 0, the tag of address 0, while
`floor(a / 2 ^ (s + b))` is `2 ^ 55`; replayed after a load of address 0 it is counted
as a hit. -/
theorem tag_num_loses_bit_63 :
    main_tag_num 4 4 (wrap_long 0x8000000000000000) = 0 ∧
    main_tag_num 4 4 (wrap_long 0x8000000000000000) = main_tag_num 4 4 (wrap_long 0) ∧
    main_tag_num 4 4 (wrap_long 0x8000000000000000) ≠
      ((0x8000000000000000 / 2 ^ (4 + 4) : Nat) : Int) ∧
    main_stats 4 1 4 [⟨'L', 0, 1⟩, ⟨'L', 0x8000000000000000, 1⟩] = ⟨1, 1, 0, 0, 0⟩ := by
  refine ⟨?_, ?_, ?_, ?_⟩ <;> decide

/-- C7: for every 64-bit address `a` and all `s`, `b` with `s + b < 64`, the set index
the decoder computes is `floor(a / 2 ^ b) mod 2 ^ s`; it lies in `[0, 2 ^ s)`, and it is
0 when `s = 0`. -/
theorem set_num_is_index_bits (a s b : Nat) (ha : a < 2 ^ 64) (hsb : s + b < 64) :
    main_set_num s b (wrap_long a) = (((a / 2 ^ b) % 2 ^ s : Nat) : Int) ∧
    0 ≤ main_set_num s b (wrap_long a) ∧ main_set_num s b (wrap_long a) < 2 ^ s ∧
    (s = 0 → main_set_num s b (wrap_long a) = 0) := by
  have h : main_set_num s b (wrap_long a) = (((a / 2 ^ b) % 2 ^ s : Nat) : Int) := by
    rw [main_set_num_eq s b (by omega), shr_wrap_long_mod a b s ha (by omega)]
  have hlt : (a / 2 ^ b) % 2 ^ s < 2 ^ s := Nat.mod_lt _ (by positivity)
  refine ⟨h, ?_, ?_, ?_⟩
  · rw [h]; exact Int.ofNat_nonneg _
  · rw [h]; exact_mod_cast hlt
  · intro hs
    rw [h]
    subst hs
    simp [Nat.mod_one]

theorem set_num_is_index_bits_witness :
    main_set_num 3 2 (wrap_long 0xffffffffffffffe5) =
        (((0xffffffffffffffe5 / 2 ^ 2) % 2 ^ 3 : Nat) : Int) ∧
    0 ≤ main_set_num 3 2 (wrap_long 0xffffffffffffffe5) ∧
    main_set_num 3 2 (wrap_long 0xffffffffffffffe5) < 2 ^ 3 ∧
    (3 = 0 → main_set_num 3 2 (wrap_long 0xffffffffffffffe5) = 0) :=
  set_num_is_index_bits 0xffffffffffffffe5 3 2 (by decide) (by decide)

/-- C8: on a fresh set with two lines, the accesses `A, B, A, C` (pairwise distinct tags,
any mix of loads and stores) give miss, miss, hit, miss; the only eviction is on the `C`
access and it evicts `B`; afterwards the two lines are valid and hold `A` and `C`. -/
theorem two_way_A_B_A_C_evicts_B (S k : Nat) (A B C : Int) (l1 l2 l3 l4 : Bool)
    (hk : k < S) (hAB : A ≠ B) (hAC : A ≠ C) (hBC : B ≠ C) :
    outcomes 2 (init_state S 2) [⟨l1, A, k⟩, ⟨l2, B, k⟩, ⟨l3, A, k⟩, ⟨l4, C, k⟩] =
      [outcome.miss_fill, outcome.miss_fill, outcome.hit, outcome.miss_evict (some B)] ∧
    (replay 2 (init_state S 2) [⟨l1, A, k⟩, ⟨l2, B, k⟩, ⟨l3, A, k⟩]).2.evictions = 0 ∧
    (replay 2 (init_state S 2)
      [⟨l1, A, k⟩, ⟨l2, B, k⟩, ⟨l3, A, k⟩, ⟨l4, C, k⟩]).2.evictions = 1 ∧
    (rd (replay 2 (init_state S 2)
      [⟨l1, A, k⟩, ⟨l2, B, k⟩, ⟨l3, A, k⟩, ⟨l4, C, k⟩]).1 (k * 2 + 0)).valid_bit = 1 ∧
    (rd (replay 2 (init_state S 2)
      [⟨l1, A, k⟩, ⟨l2, B, k⟩, ⟨l3, A, k⟩, ⟨l4, C, k⟩]).1 (k * 2 + 0)).tag = A ∧
    (rd (replay 2 (init_state S 2)
      [⟨l1, A, k⟩, ⟨l2, B, k⟩, ⟨l3, A, k⟩, ⟨l4, C, k⟩]).1 (k * 2 + 1)).valid_bit = 1 ∧
    (rd (replay 2 (init_state S 2)
      [⟨l1, A, k⟩, ⟨l2, B, k⟩, ⟨l3, A, k⟩, ⟨l4, C, k⟩]).1 (k * 2 + 1)).tag = C := by
  obtain ⟨d1, d2, d3, d4, e1, e2, e3, e4⟩ := two_way_trace S k A B C l1 l2 l3 l4 hk hAB hAC hBC
  have h0 : k * 2 < S * 2 := by omega
  have h1 : k * 2 + 1 < S * 2 := by omega
  have hl : (init_cache S 2).length = S * 2 := by simp [init_cache]
  have hBC' : C ≠ B := fun e => hBC e.symm
  have hAB' : B ≠ A := fun e => hAB e.symm
  obtain ⟨a1, a2, a3, a4⟩ := e1 init_stat
  generalize hc1 : step 2 (init_cache S 2, init_stat) ⟨l1, A, k⟩ = c1 at a1 a2 a3 a4
  obtain ⟨b1, s1⟩ := c1
  simp only at a1 a2 a3 a4
  subst a1
  obtain ⟨a1, b2, b3, b4⟩ := e2 s1
  generalize hc2 : step 2 ((init_cache S 2).set (k * 2) ⟨1, d1, A, 1⟩, s1) ⟨l2, B, k⟩ = c2
    at a1 b2 b3 b4
  obtain ⟨b2', s2⟩ := c2
  simp only at a1 b2 b3 b4
  subst a1
  obtain ⟨a1, c2, c3, c4⟩ := e3 s2
  generalize hc3 : step 2 (((init_cache S 2).set (k * 2) ⟨1, d1, A, 1⟩).set (k * 2 + 1)
    ⟨1, d2, B, 2⟩, s2) ⟨l3, A, k⟩ = c3' at a1 c2 c3 c4
  obtain ⟨b3', s3⟩ := c3'
  simp only at a1 c2 c3 c4
  subst a1
  obtain ⟨a1, f2, f3, f4⟩ := e4 s3
  generalize hc4 : step 2 ((((init_cache S 2).set (k * 2) ⟨1, d1, A, 1⟩).set (k * 2 + 1)
    ⟨1, d2, B, 2⟩).set (k * 2) ⟨1, d3, A, 3⟩, s3) ⟨l4, C, k⟩ = c4' at a1 f2 f3 f4
  obtain ⟨b4', s4⟩ := c4'
  simp only at a1 f2 f3 f4
  subst a1
  simp only [outcomes, replay, List.foldl_cons, List.foldl_nil, init_state, hc1, hc2, hc3, hc4]
  refine ⟨?_, ?_, ?_, ?_, ?_, ?_, ?_⟩
  · simp [observe, a2, a4, b2, b4, c2, c4, f2, f4, first_index_two, rd_set, rd_init, hl, h0,
      h1, zero_block, init_stat, hBC', hAB']
  · simp [c4, b4, a4, init_stat]
  · simp [f4, c4, b4, a4, init_stat]
  · simp [rd_set, hl, h0, h1]
  · simp [rd_set, hl, h0, h1]
  · simp [rd_set, hl, h0, h1]
  · simp [rd_set, hl, h0, h1]

theorem two_way_A_B_A_C_evicts_B_witness :
    outcomes 2 (init_state 1 2) [⟨true, 1, 0⟩, ⟨false, 2, 0⟩, ⟨true, 1, 0⟩, ⟨false, 3, 0⟩] =
      [outcome.miss_fill, outcome.miss_fill, outcome.hit, outcome.miss_evict (some 2)] :=
  (two_way_A_B_A_C_evicts_B 1 0 1 2 3 true false true false (by decide) (by decide)
    (by decide) (by decide)).1

set_option maxRecDepth 100000 in
/-- C9 as stated fails: with `s = 0`, `E = 1`, `b = 0` the trace `L 0,1 / L 1,1 / L 0,1`
does not end with `hits = 1`, `misses = 2`, `evictions = 1`. -/
theorem single_line_three_loads_not_one_hit :
    main_stats 0 1 0 [⟨'L', 0, 1⟩, ⟨'L', 1, 1⟩, ⟨'L', 0, 1⟩] ≠ ⟨1, 2, 1, 0, 0⟩ := by
  decide

set_option maxRecDepth 100000 in
/-- C9, amended: with `s = 0`, `E = 1`, `b = 0` the trace `L 0,1 / L 1,1 / L 0,1` ends with
`hits = 0`, `misses = 3`, `evictions = 2`, `dirty_bytes = 0`, `dirty_evictions = 0`: the
single line holds tag 1 when address 0 is loaded again. -/
theorem single_line_three_loads :
    main_stats 0 1 0 [⟨'L', 0, 1⟩, ⟨'L', 1, 1⟩, ⟨'L', 0, 1⟩] = ⟨0, 3, 2, 0, 0⟩ := by
  decide

/-- C10: with `s = 0`, `E = 1`, `b = 0` the trace `S 0,1 / S 0,1` ends with `hits = 1`,
`misses = 1`, `evictions = 0`, `dirty_bytes = 1`, `dirty_evictions = 0`. -/
theorem single_line_two_stores :
    main_stats 0 1 0 [⟨'S', 0, 1⟩, ⟨'S', 0, 1⟩] = ⟨1, 1, 0, 1, 0⟩ := by
  decide

/-- C11: in a state reached from the freshly initialised cache, for a set in range with an
invalid line and no valid line holding the tag, `eval_load` fills a line (a miss without
eviction), leaves that line's `dirty_bit` 0 and `dirty_bytes` unchanged; `eval_store` on
the same set and tag right after it is a hit that sets the line's `dirty_bit` to 1 and
adds exactly 1 to `dirty_bytes`. -/
theorem store_after_load_fill (S E : Nat) (trace : List access) (t : Int) (k : Nat)
    (hset : ∀ a ∈ trace, a.set < S) (hk : k < S)
    (hfree : ∃ i, i < E ∧ (rd (replay E (init_state S E) trace).1 (k * E + i)).valid_bit = 0)
    (hmiss : ∀ j, j < E →
      ¬ ((rd (replay E (init_state S E) trace).1 (k * E + j)).valid_bit = 1 ∧
        (rd (replay E (init_state S E) trace).1 (k * E + j)).tag = t)) :
    ∃ i, i < E ∧
      (rd (replay E (init_state S E) trace).1 (k * E + i)).valid_bit = 0 ∧
      (rd (eval_load t k E (replay E (init_state S E) trace).1
        (replay E (init_state S E) trace).2).1 (k * E + i)).valid_bit = 1 ∧
      (rd (eval_load t k E (replay E (init_state S E) trace).1
        (replay E (init_state S E) trace).2).1 (k * E + i)).tag = t ∧
      (rd (eval_load t k E (replay E (init_state S E) trace).1
        (replay E (init_state S E) trace).2).1 (k * E + i)).dirty_bit = 0 ∧
      (eval_load t k E (replay E (init_state S E) trace).1
        (replay E (init_state S E) trace).2).2.dirty_bytes =
          (replay E (init_state S E) trace).2.dirty_bytes ∧
      (eval_load t k E (replay E (init_state S E) trace).1
        (replay E (init_state S E) trace).2).2.misses =
          (replay E (init_state S E) trace).2.misses + 1 ∧
      (eval_load t k E (replay E (init_state S E) trace).1
        (replay E (init_state S E) trace).2).2.evictions =
          (replay E (init_state S E) trace).2.evictions ∧
      (eval_store t k E
        (eval_load t k E (replay E (init_state S E) trace).1
          (replay E (init_state S E) trace).2).1
        (eval_load t k E (replay E (init_state S E) trace).1
          (replay E (init_state S E) trace).2).2).2.hits =
        (eval_load t k E (replay E (init_state S E) trace).1
          (replay E (init_state S E) trace).2).2.hits + 1 ∧
      (rd (eval_store t k E
        (eval_load t k E (replay E (init_state S E) trace).1
          (replay E (init_state S E) trace).2).1
        (eval_load t k E (replay E (init_state S E) trace).1
          (replay E (init_state S E) trace).2).2).1 (k * E + i)).dirty_bit = 1 ∧
      (eval_store t k E
        (eval_load t k E (replay E (init_state S E) trace).1
          (replay E (init_state S E) trace).2).1
        (eval_load t k E (replay E (init_state S E) trace).1
          (replay E (init_state S E) trace).2).2).2.dirty_bytes =
        (eval_load t k E (replay E (init_state S E) trace).1
          (replay E (init_state S E) trace).2).2.dirty_bytes + 1 := by
  have hinv : base_inv S E (replay E (init_state S E) trace) :=
    base_inv_replay trace _ (base_inv_init S E) hset
  generalize replay E (init_state S E) trace = c at hinv hmiss hfree
  obtain ⟨b, st⟩ := c
  simp only at hmiss hfree
  have hlen : b.length = S * E := hinv.len
  obtain ⟨i', hi', hv0'⟩ := hfree
  obtain ⟨i, hfi⟩ := @first_index_exists E
    (fun i => decide ((rd b (k * E + i)).valid_bit = 0)) i' hi' (by simpa using hv0')
  obtain ⟨hi, hv0, hfirst⟩ := first_index_some hfi
  simp only [decide_eq_true_eq] at hv0
  have hfirst' : ∀ j, j < i → (rd b (k * E + j)).valid_bit ≠ 0 := by
    intro j hj
    simpa using hfirst j hj
  have hidx : k * E + i < b.length := by rw [hlen]; exact index_lt hk hi
  have hd0 : (rd b (k * E + i)).dirty_bit = 0 :=
    (hinv.bits (k * E + i) (index_lt hk hi)).2.2 hv0
  have hl : ∀ b' st', eval_load t k E b' st' = step E (b', st') ⟨true, t, k⟩ :=
    fun _ _ => rfl
  have hs : ∀ b' st', eval_store t k E b' st' = step E (b', st') ⟨false, t, k⟩ :=
    fun _ _ => rfl
  have h1 := @step_of_fill E b st ⟨true, t, k⟩ i hmiss hi hv0 hfirst'
  simp only at h1
  simp only [hl, hs, h1]
  have hline : rd (b.set (k * E + i)
      (fill_block true t (order_bounds k E b).2 (rd b (k * E + i)))) (k * E + i) =
      fill_block true t (order_bounds k E b).2 (rd b (k * E + i)) := by
    rw [rd_set]; simp [hidx]
  have hbefore : ∀ j, j < i →
      rd (b.set (k * E + i)
        (fill_block true t (order_bounds k E b).2 (rd b (k * E + i)))) (k * E + j) =
      rd b (k * E + j) := by
    intro j hj
    rw [rd_set]
    have e : ¬ (k * E + i = k * E + j) := by omega
    simp [e]
  have h2 := @step_of_hit E
    (b.set (k * E + i) (fill_block true t (order_bounds k E b).2 (rd b (k * E + i))))
    (fill_stat true st) ⟨false, t, k⟩ i hi
    (by simp only [hline]; simp [fill_block])
    (by
      intro j hj
      simp only [hbefore j hj]
      exact hmiss j (by omega))
  simp only at h2
  rw [h2]
  have hidx' : k * E + i < (b.set (k * E + i)
      (fill_block true t (order_bounds k E b).2 (rd b (k * E + i)))).length := by
    simpa using hidx
  refine ⟨i, hi, hv0, ?_, ?_, ?_, ?_, ?_, ?_, ?_, ?_, ?_⟩
  · rw [hline]; simp [fill_block]
  · rw [hline]; simp [fill_block]
  · rw [hline]; simp [fill_block, hd0]
  · simp [fill_stat]
  · simp [fill_stat]
  · simp [fill_stat]
  · simp [hit_stat]
  · rw [rd_set]
    simp only [hline]
    simp [hidx, hit_block, fill_block, hd0]
  · simp only [hline]
    simp [hit_stat, fill_block, hd0]

theorem store_after_load_fill_witness :
    (eval_store 6 0 2
      (eval_load 6 0 2 (replay 2 (init_state 1 2) [⟨false, 5, 0⟩]).1
        (replay 2 (init_state 1 2) [⟨false, 5, 0⟩]).2).1
      (eval_load 6 0 2 (replay 2 (init_state 1 2) [⟨false, 5, 0⟩]).1
        (replay 2 (init_state 1 2) [⟨false, 5, 0⟩]).2).2).2.dirty_bytes =
      (eval_load 6 0 2 (replay 2 (init_state 1 2) [⟨false, 5, 0⟩]).1
        (replay 2 (init_state 1 2) [⟨false, 5, 0⟩]).2).2.dirty_bytes + 1 := by
  obtain ⟨_, _, _, _, _, _, _, _, _, _, _, h⟩ :=
    store_after_load_fill 1 2 [⟨false, 5, 0⟩] 6 0 (by decide) (by decide)
      ⟨1, by decide, by decide⟩ (by decide)
  exact h

/-- C12: with one line per set, after `eval_load` on `(k, t)` in a state reached from the
freshly initialised cache, and then any sequence of accesses (set indices in range) none
of which addresses set `k` with a tag other than `t`, a further `eval_load` on `(k, t)` is a
hit: `hits` goes up by 1, `misses` and `evictions` stay. -/
theorem direct_mapped_reload_hits (S : Nat) (before between : List access) (k : Nat)
    (t : Int) (hk : k < S) (hbefore : ∀ a ∈ before, a.set < S)
    (hbetween : ∀ a ∈ between, a.set < S ∧ (a.set = k → a.tag = t)) :
    (step 1 (replay 1 (step 1 (replay 1 (init_state S 1) before) ⟨true, t, k⟩) between)
        ⟨true, t, k⟩).2.hits =
      (replay 1 (step 1 (replay 1 (init_state S 1) before) ⟨true, t, k⟩) between).2.hits + 1 ∧
    (step 1 (replay 1 (step 1 (replay 1 (init_state S 1) before) ⟨true, t, k⟩) between)
        ⟨true, t, k⟩).2.misses =
      (replay 1 (step 1 (replay 1 (init_state S 1) before) ⟨true, t, k⟩) between).2.misses ∧
    (step 1 (replay 1 (step 1 (replay 1 (init_state S 1) before) ⟨true, t, k⟩) between)
        ⟨true, t, k⟩).2.evictions =
      (replay 1 (step 1 (replay 1 (init_state S 1) before) ⟨true, t, k⟩) between).2.evictions := by
  have hinv : base_inv S 1 (replay 1 (init_state S 1) before) :=
    base_inv_replay before _ (base_inv_init S 1) hbefore
  generalize replay 1 (init_state S 1) before = c0 at hinv
  obtain ⟨b0, st0⟩ := c0
  have hlen0 : b0.length = S * 1 := hinv.len
  have hidx0 : k * 1 + 0 < b0.length := by rw [hlen0]; exact index_lt hk (by omega)
  -- after the first load, the line of set `k` is valid and holds `t`
  have h1 : (step 1 (b0, st0) ⟨true, t, k⟩).1.length = S * 1 ∧
      (rd (step 1 (b0, st0) ⟨true, t, k⟩).1 (k * 1 + 0)).valid_bit = 1 ∧
      (rd (step 1 (b0, st0) ⟨true, t, k⟩).1 (k * 1 + 0)).tag = t := by
    refine ⟨by rw [step_length, hlen0], ?_⟩
    obtain ⟨_, ⟨jm, hjm, hmin⟩, _⟩ := order_bounds_spec k 1 b0 (le_refl 1)
    rcases step_cases 1 b0 st0 ⟨true, t, k⟩ with
      ⟨i, hi, ⟨hv, ht⟩, _, heq⟩ | ⟨_, i, hi, _, _, heq⟩ | ⟨_, hall, i, hi, _, _, heq⟩ |
      ⟨_, _, hnm, _⟩
    · have e : i = 0 := by omega
      subst e
      simp only at hv ht
      rw [heq]
      simp only [Nat.mul_one, Nat.add_zero] at hidx0 hv ht ⊢
      simp [rd_set, hidx0, hit_block, hv, ht]
    · have e : i = 0 := by omega
      subst e
      rw [heq]
      simp only [Nat.mul_one, Nat.add_zero] at hidx0 ⊢
      simp [rd_set, hidx0, fill_block]
    · have e : i = 0 := by omega
      subst e
      have hv : (rd b0 (k * 1 + 0)).valid_bit = 1 := by
        rcases (hinv.bits (k * 1 + 0) (index_lt hk (by omega))).1 with h0 | h0
        · exact absurd h0 (hall 0 (by omega))
        · exact h0
      rw [heq]
      simp only [Nat.mul_one, Nat.add_zero] at hidx0 hv ⊢
      simp [rd_set, hidx0, evict_block, hv]
    · exact absurd hmin.symm (hnm jm hjm)
  generalize step 1 (b0, st0) ⟨true, t, k⟩ = c1 at h1
  clear hinv hlen0 hidx0
  -- the accesses in between keep it so
  have h2 : (replay 1 c1 between).1.length = S * 1 ∧
      (rd (replay 1 c1 between).1 (k * 1 + 0)).valid_bit = 1 ∧
      (rd (replay 1 c1 between).1 (k * 1 + 0)).tag = t := by
    induction between generalizing c1 with
    | nil => simpa [replay] using h1
    | cons a rest ih =>
      simp only [replay, List.foldl_cons]
      apply ih
      · intro a' ha'
        exact hbetween a' (by simp [ha'])
      · obtain ⟨b1, st1⟩ := c1
        obtain ⟨hl, hv, ht⟩ := h1
        simp only at hl hv ht
        obtain ⟨has, hat⟩ := hbetween a (by simp)
        refine ⟨by rw [step_length, hl], ?_⟩
        by_cases e : a.set = k
        · have hh := @step_of_hit 1 b1 st1 a 0 (by omega)
            (by rw [e, hat e]; exact ⟨hv, ht⟩) (by intro j hj; omega)
          have hidx : a.set * 1 + 0 < b1.length := by rw [hl, e]; exact index_lt hk (by omega)
          rw [hh, ← e]
          rw [e] at hidx ⊢
          simp only [Nat.mul_one, Nat.add_zero] at hidx hv ht ⊢
          simp [rd_set, hidx, hit_block, hv, ht]
        · have hf := @step_frame 1 b1 st1 a k 0 (fun h => e h.symm) (by omega)
          rw [hf]
          exact ⟨hv, ht⟩
  generalize replay 1 c1 between = c2 at h2
  obtain ⟨b2, st2⟩ := c2
  obtain ⟨_, hv, ht⟩ := h2
  simp only at hv ht
  have hh := @step_of_hit 1 b2 st2 ⟨true, t, k⟩ 0 (by omega) ⟨hv, ht⟩ (by intro j hj; omega)
  rw [hh]
  simp [hit_stat]

theorem direct_mapped_reload_hits_witness :
    (step 1 (replay 1 (step 1 (replay 1 (init_state 2 1) [⟨true, 3, 0⟩]) ⟨true, 4, 0⟩)
        [⟨false, 9, 1⟩, ⟨false, 4, 0⟩, ⟨true, 8, 1⟩]) ⟨true, 4, 0⟩).2.hits =
      (replay 1 (step 1 (replay 1 (init_state 2 1) [⟨true, 3, 0⟩]) ⟨true, 4, 0⟩)
        [⟨false, 9, 1⟩, ⟨false, 4, 0⟩, ⟨true, 8, 1⟩]).2.hits + 1 :=
  (direct_mapped_reload_hits 2 [⟨true, 3, 0⟩] [⟨false, 9, 1⟩, ⟨false, 4, 0⟩, ⟨true, 8, 1⟩] 0 4
    (by decide) (by decide) (by decide)).1

set_option maxRecDepth 100000 in
/-- C13: with `b = 32` (and `s = 0`, `E = 1`) the trace `S 0,1` ends with one dirty line,
yet the `dirty_bytes` handed to `printSummary` is 0 and not `1 * 2 ^ 32`: `set_power 32`,
computed by doubling an `int`, is 0 and not the 32nd power of 2.  In the same way the
trace `S 0,1 / L 100000000,1` evicts one dirty line, and `dirty_evictions` is 0. -/
theorem scaled_dirty_counters_lost :
    dirty_count (main_run 0 1 32 [⟨'S', 0, 1⟩]).1 = 1 ∧
    (main_stats 0 1 32 [⟨'S', 0, 1⟩]).dirty_bytes = 0 ∧
    (main_run 0 1 32 [⟨'S', 0, 1⟩, ⟨'L', 0x100000000, 1⟩]).2.dirty_evictions = 1 ∧
    (main_stats 0 1 32 [⟨'S', 0, 1⟩, ⟨'L', 0x100000000, 1⟩]).dirty_evictions = 0 ∧
    set_power 32 = 0 := by
  refine ⟨?_, ?_, ?_, ?_, ?_⟩ <;> decide

/-- C14: in every state reached from the freshly initialised cache (at least one line per
set, set indices in range), `eval_load` turns no `dirty_bit` from 0 into 1 and does not
increase `dirty_bytes`, and after `eval_store` on `(set, tag)` the addressed set has a
line with `valid_bit = 1`, that tag and `dirty_bit = 1`. -/
theorem load_never_dirties_store_always_dirties (S E : Nat) (trace : List access) (t : Int)
    (k : Nat) (hE : 1 ≤ E) (hset : ∀ a ∈ trace, a.set < S) (hk : k < S) :
    (∀ j, ¬ ((rd (replay E (init_state S E) trace).1 j).dirty_bit = 0 ∧
      (rd (eval_load t k E (replay E (init_state S E) trace).1
        (replay E (init_state S E) trace).2).1 j).dirty_bit = 1)) ∧
    (eval_load t k E (replay E (init_state S E) trace).1
      (replay E (init_state S E) trace).2).2.dirty_bytes ≤
        (replay E (init_state S E) trace).2.dirty_bytes ∧
    (∃ i, i < E ∧
      (rd (eval_store t k E (replay E (init_state S E) trace).1
        (replay E (init_state S E) trace).2).1 (k * E + i)).valid_bit = 1 ∧
      (rd (eval_store t k E (replay E (init_state S E) trace).1
        (replay E (init_state S E) trace).2).1 (k * E + i)).tag = t ∧
      (rd (eval_store t k E (replay E (init_state S E) trace).1
        (replay E (init_state S E) trace).2).1 (k * E + i)).dirty_bit = 1) := by
  have hinv : base_inv S E (replay E (init_state S E) trace) :=
    base_inv_replay trace _ (base_inv_init S E) hset
  generalize replay E (init_state S E) trace = c at hinv
  obtain ⟨b, st⟩ := c
  have hlen : b.length = S * E := hinv.len
  have hl : eval_load t k E b st = step E (b, st) ⟨true, t, k⟩ := rfl
  have hs : eval_store t k E b st = step E (b, st) ⟨false, t, k⟩ := rfl
  simp only [hl, hs]
  obtain ⟨_, ⟨jm, hjm, hmin⟩, _⟩ := order_bounds_spec k E b hE
  refine ⟨?_, ?_, ?_⟩
  · rintro j ⟨h0, h1⟩
    rcases step_cases E b st ⟨true, t, k⟩ with
      ⟨i, hi, _, _, heq⟩ | ⟨_, i, hi, _, _, heq⟩ | ⟨_, _, i, hi, _, _, heq⟩ | ⟨_, _, _, heq⟩
    · rw [heq] at h1
      simp only [rd_set] at h1
      split at h1
      · rename_i h
        simp only [hit_block, if_true] at h1
        rw [h.1] at h1
        omega
      · omega
    · rw [heq] at h1
      simp only [rd_set] at h1
      split at h1
      · rename_i h
        simp only [fill_block, if_true] at h1
        rw [h.1] at h1
        omega
      · omega
    · rw [heq] at h1
      simp only [rd_set] at h1
      split at h1
      · rename_i h
        simp only [evict_block, if_true] at h1
        rw [h.1] at h1
        split at h1 <;> omega
      · omega
    · rw [heq] at h1
      simp only at h1
      omega
  · rcases step_cases E b st ⟨true, t, k⟩ with
      ⟨i, hi, _, _, heq⟩ | ⟨_, i, hi, _, _, heq⟩ | ⟨_, _, i, hi, _, _, heq⟩ | ⟨_, _, _, heq⟩
    · rw [heq]; simp [hit_stat]
    · rw [heq]; simp [fill_stat]
    · rw [heq]; simp only [evict_stat, if_true]; split <;> omega
    · rw [heq]
  · rcases step_cases E b st ⟨false, t, k⟩ with
      ⟨i, hi, ⟨hv, ht⟩, _, heq⟩ | ⟨_, i, hi, _, _, heq⟩ | ⟨_, hall, i, hi, _, _, heq⟩ |
      ⟨_, _, hnm, _⟩
    · have hidx : k * E + i < b.length := by rw [hlen]; exact index_lt hk hi
      have hb := hinv.bits (k * E + i) (index_lt hk hi)
      simp only at hv ht hb
      refine ⟨i, hi, ?_, ?_, ?_⟩
      · rw [heq]; simp [rd_set, hidx, hit_block, hv]
      · rw [heq]; simp [rd_set, hidx, hit_block, ht]
      · rw [heq]
        simp only [rd_set]
        rcases hb.2.1 with h0 | h0 <;> simp [hidx, hit_block, h0]
    · have hidx : k * E + i < b.length := by rw [hlen]; exact index_lt hk hi
      refine ⟨i, hi, ?_, ?_, ?_⟩ <;> rw [heq] <;> simp [rd_set, hidx, fill_block]
    · have hidx : k * E + i < b.length := by rw [hlen]; exact index_lt hk hi
      have hb := hinv.bits (k * E + i) (index_lt hk hi)
      have hv : (rd b (k * E + i)).valid_bit = 1 := by
        rcases hb.1 with h0 | h0
        · exact absurd h0 (hall i hi)
        · exact h0
      refine ⟨i, hi, ?_, ?_, ?_⟩ <;> rw [heq] <;> simp [rd_set, hidx, evict_block, hv]
    · exact absurd hmin.symm (hnm jm hjm)

theorem load_never_dirties_store_always_dirties_witness :
    (eval_load 7 0 2 (replay 2 (init_state 1 2) [⟨false, 5, 0⟩, ⟨false, 6, 0⟩]).1
      (replay 2 (init_state 1 2) [⟨false, 5, 0⟩, ⟨false, 6, 0⟩]).2).2.dirty_bytes ≤
        (replay 2 (init_state 1 2) [⟨false, 5, 0⟩, ⟨false, 6, 0⟩]).2.dirty_bytes :=
  (load_never_dirties_store_always_dirties 1 2 [⟨false, 5, 0⟩, ⟨false, 6, 0⟩] 7 0
    (by decide) (by decide) (by decide)).2.1

/-- C15: a call of `eval_load` / `eval_store` on set `k` leaves every line of every other
set with the same `valid_bit`, `dirty_bit`, `tag` and `order`, and changes at most one
line of set `k`. -/
theorem other_sets_and_lines_unchanged (E : Nat) (c : List block_t × csim_stats_t)
    (a : access) :
    (∀ j i, j ≠ a.set → i < E → rd (step E c a).1 (j * E + i) = rd c.1 (j * E + i)) ∧
    (∃ i0, ∀ i, i ≠ i0 → rd (step E c a).1 (a.set * E + i) = rd c.1 (a.set * E + i)) := by
  obtain ⟨b, st⟩ := c
  refine ⟨fun j i hj hi => step_frame b st a hj hi, ?_⟩
  rcases step_writes_one E b st a with h | ⟨i0, x, _, h⟩
  · exact ⟨0, fun i _ => by rw [h]⟩
  · refine ⟨i0, fun i hi => ?_⟩
    rw [h, rd_set]
    have e : ¬ (a.set * E + i0 = a.set * E + i) := by omega
    simp [e]

/-- C16 as stated fails.  With three lines per set, after the first access the two lines
that are still invalid both carry order 0.  And on `stamp_tie_trace` (two lines,
`2 ^ 31 + 1` loads) the stamp has left the range of `int` twice, so that the two valid
lines carry the same order. -/
theorem equal_orders_after_access :
    (rd (replay 3 (init_state 1 3) [⟨true, 5, 0⟩]).1 (0 * 3 + 1)).order =
      (rd (replay 3 (init_state 1 3) [⟨true, 5, 0⟩]).1 (0 * 3 + 2)).order ∧
    ((rd (replay 2 (init_state 1 2) stamp_tie_trace).1 (0 * 2 + 0)).valid_bit = 1 ∧
      (rd (replay 2 (init_state 1 2) stamp_tie_trace).1 (0 * 2 + 1)).valid_bit = 1 ∧
      (rd (replay 2 (init_state 1 2) stamp_tie_trace).1 (0 * 2 + 0)).order =
        (rd (replay 2 (init_state 1 2) stamp_tie_trace).1 (0 * 2 + 1)).order) := by
  refine ⟨by decide, ?_⟩
  rw [stamp_tie_state]
  decide

/-- C16, amended: starting from the freshly initialised cache, after any sequence of
`eval_load` / `eval_store` calls (at least one line per set, set indices in range), every
invalid line still has order 0; and in a set that has received at most `2 ^ 31` of the
calls no two valid lines carry equal order and every valid line has an order other than 0,
so that two lines of the set with equal order are both invalid. -/
theorem valid_orders_distinct (S E : Nat) (trace : List access) (hE : 1 ≤ E)
    (hset : ∀ a ∈ trace, a.set < S) :
    (∀ k i, k < S → i < E →
      (rd (replay E (init_state S E) trace).1 (k * E + i)).valid_bit = 0 →
      (rd (replay E (init_state S E) trace).1 (k * E + i)).order = 0) ∧
    (∀ k, k < S → accesses_to k trace ≤ 2 ^ 31 →
      (∀ i j, i < E → j < E → i ≠ j →
        (rd (replay E (init_state S E) trace).1 (k * E + i)).valid_bit = 1 →
        (rd (replay E (init_state S E) trace).1 (k * E + j)).valid_bit = 1 →
        (rd (replay E (init_state S E) trace).1 (k * E + i)).order ≠
          (rd (replay E (init_state S E) trace).1 (k * E + j)).order) ∧
      (∀ i, i < E → (rd (replay E (init_state S E) trace).1 (k * E + i)).valid_bit = 1 →
        (rd (replay E (init_state S E) trace).1 (k * E + i)).order ≠ 0) ∧
      (∀ i j, i < E → j < E → i ≠ j →
        (rd (replay E (init_state S E) trace).1 (k * E + i)).order =
          (rd (replay E (init_state S E) trace).1 (k * E + j)).order →
        (rd (replay E (init_state S E) trace).1 (k * E + i)).valid_bit = 0 ∧
        (rd (replay E (init_state S E) trace).1 (k * E + j)).valid_bit = 0)) := by
  have hz : ∀ j, (rd (replay E (init_state S E) trace).1 j).valid_bit = 0 →
      (rd (replay E (init_state S E) trace).1 j).order = 0 :=
    invalid_order_zero E trace (init_state S E) (fun j _ => by
      show (rd (init_cache S E) j).order = 0
      rw [rd_init]
      rfl)
  refine ⟨fun k i _ _ hv => hz _ hv, ?_⟩
  intro k hk hcnt
  have h := stamps_of_trace hE trace hset hk hcnt
  have hb := base_inv_replay trace _ (base_inv_init S E) hset
  generalize replay E (init_state S E) trace = c at h hb
  refine ⟨h.distinct, h.valid, ?_⟩
  intro i j hi hj hij heq
  have hbi := (hb.bits (k * E + i) (index_lt hk hi)).1
  have hbj := (hb.bits (k * E + j) (index_lt hk hj)).1
  have hd := h.distinct i j hi hj hij
  have hi0 := h.invalid i hi
  have hj0 := h.invalid j hj
  have hi1 := h.valid i hi
  have hj1 := h.valid j hj
  simp only at hd hi0 hj0 hi1 hj1
  rcases hbi with hvi | hvi <;> rcases hbj with hvj | hvj
  · exact ⟨hvi, hvj⟩
  · exact absurd (by rw [← heq]; exact hi0 hvi) (hj1 hvj)
  · exact absurd (by rw [heq]; exact hj0 hvj) (hi1 hvi)
  · exact absurd heq (hd hvi hvj)

theorem valid_orders_distinct_witness :
    (rd (replay 3 (init_state 2 3) [⟨true, 5, 0⟩, ⟨false, 6, 0⟩, ⟨true, 9, 1⟩]).1
        (0 * 3 + 0)).order ≠
      (rd (replay 3 (init_state 2 3) [⟨true, 5, 0⟩, ⟨false, 6, 0⟩, ⟨true, 9, 1⟩]).1
        (0 * 3 + 1)).order :=
  ((valid_orders_distinct 2 3 [⟨true, 5, 0⟩, ⟨false, 6, 0⟩, ⟨true, 9, 1⟩] (by decide)
    (by decide)).2 0 (by decide) (by decide)).1 0 1 (by decide) (by decide) (by decide)
    (by decide) (by decide)

/-- C17: for a call on a set in range with at least one line, whose lines carry orders
below the `int` maximum, exactly one line `i0` of the set is touched: the first valid line
holding the tag (hit), or else the first invalid line (fill), or else the first line whose
order is `min_order` (reuse).  Afterwards that line holds the tag and has
`order = max_order + 1`, where `max_order` is the largest order of the set before the call;
no other block of the array changes, and the order of the touched line is strictly greater
than the order of every other line of the set. -/
theorem touched_line_gets_max_plus_one (S E : Nat) (b : List block_t) (st : csim_stats_t)
    (a : access) (hE : 1 ≤ E) (hlen : b.length = S * E) (ha : a.set < S)
    (hrange : ∀ i, i < E → -2 ^ 31 ≤ (rd b (a.set * E + i)).order ∧
      (rd b (a.set * E + i)).order < 2 ^ 31 - 1) :
    (∀ i, i < E → (rd b (a.set * E + i)).order ≤ (order_bounds a.set E b).2) ∧
    (∃ i, i < E ∧ (rd b (a.set * E + i)).order = (order_bounds a.set E b).2) ∧
    ∃ i0, i0 < E ∧
      ((((rd b (a.set * E + i0)).valid_bit = 1 ∧ (rd b (a.set * E + i0)).tag = a.tag) ∧
          (∀ j, j < i0 →
            ¬ ((rd b (a.set * E + j)).valid_bit = 1 ∧ (rd b (a.set * E + j)).tag = a.tag)) ∧
          (step E (b, st) a).2 = hit_stat a.is_load (rd b (a.set * E + i0)) st) ∨
        ((∀ j, j < E →
            ¬ ((rd b (a.set * E + j)).valid_bit = 1 ∧ (rd b (a.set * E + j)).tag = a.tag)) ∧
          (rd b (a.set * E + i0)).valid_bit = 0 ∧
          (∀ j, j < i0 → (rd b (a.set * E + j)).valid_bit ≠ 0) ∧
          (step E (b, st) a).2 = fill_stat a.is_load st) ∨
        ((∀ j, j < E →
            ¬ ((rd b (a.set * E + j)).valid_bit = 1 ∧ (rd b (a.set * E + j)).tag = a.tag)) ∧
          (∀ j, j < E → (rd b (a.set * E + j)).valid_bit ≠ 0) ∧
          (rd b (a.set * E + i0)).order = (order_bounds a.set E b).1 ∧
          (∀ j, j < i0 → (rd b (a.set * E + j)).order ≠ (order_bounds a.set E b).1) ∧
          (step E (b, st) a).2 = evict_stat a.is_load (rd b (a.set * E + i0)) st)) ∧
      (rd (step E (b, st) a).1 (a.set * E + i0)).tag = a.tag ∧
      (rd (step E (b, st) a).1 (a.set * E + i0)).order = (order_bounds a.set E b).2 + 1 ∧
      (∀ j, j ≠ a.set * E + i0 → rd (step E (b, st) a).1 j = rd b j) ∧
      (∀ i, i < E → i ≠ i0 →
        (rd (step E (b, st) a).1 (a.set * E + i)).order <
          (rd (step E (b, st) a).1 (a.set * E + i0)).order) := by
  obtain ⟨hbnd, ⟨jm, hjm, hmin⟩, ⟨jM, hjM, hmax⟩⟩ := order_bounds_spec a.set E b hE
  have hM := hrange jM hjM
  rw [← hmax] at hM
  have hw : wrap_int ((order_bounds a.set E b).2 + 1) = (order_bounds a.set E b).2 + 1 :=
    wrap_int_small (by omega) (by omega)
  refine ⟨fun i hi => (hbnd i hi).2, ⟨jM, hjM, hmax.symm⟩, ?_⟩
  have key : ∀ (i0 : Nat) (x : block_t), i0 < E → x.tag = a.tag →
      x.order = (order_bounds a.set E b).2 + 1 →
      (step E (b, st) a).1 = b.set (a.set * E + i0) x →
      (rd (step E (b, st) a).1 (a.set * E + i0)).tag = a.tag ∧
      (rd (step E (b, st) a).1 (a.set * E + i0)).order = (order_bounds a.set E b).2 + 1 ∧
      (∀ j, j ≠ a.set * E + i0 → rd (step E (b, st) a).1 j = rd b j) ∧
      (∀ i, i < E → i ≠ i0 →
        (rd (step E (b, st) a).1 (a.set * E + i)).order <
          (rd (step E (b, st) a).1 (a.set * E + i0)).order) := by
    intro i0 x hi0 hxt hx heq
    have hidx : a.set * E + i0 < b.length := by rw [hlen]; exact index_lt ha hi0
    have h0 : rd (step E (b, st) a).1 (a.set * E + i0) = x := by
      rw [heq, rd_set]; simp [hidx]
    have hoth : ∀ j, j ≠ a.set * E + i0 → rd (step E (b, st) a).1 j = rd b j := by
      intro j hj
      rw [heq, rd_set]
      have e : ¬ (a.set * E + i0 = j) := fun e => hj e.symm
      simp [e]
    refine ⟨by rw [h0, hxt], by rw [h0, hx], hoth, ?_⟩
    intro i hi hne
    rw [h0, hx, hoth (a.set * E + i) (by omega)]
    have := (hbnd i hi).2
    omega
  rcases step_cases E b st a with
    ⟨i, hi, hvt, hfirst, heq⟩ | ⟨hno, i, hi, hv0, hfirst, heq⟩ |
    ⟨hno, hall, i, hi, him, hfirst, heq⟩ | ⟨_, _, hnm, _⟩
  · exact ⟨i, hi, Or.inl ⟨hvt, hfirst, by rw [heq]⟩, key i
      (hit_block a.is_load (order_bounds a.set E b).2 (rd b (a.set * E + i)))
      hi (by simp [hit_block, hvt.2]) (by simp [hit_block, hw]) (by rw [heq])⟩
  · exact ⟨i, hi, Or.inr (Or.inl ⟨hno, hv0, hfirst, by rw [heq]⟩), key i
      (fill_block a.is_load a.tag (order_bounds a.set E b).2 (rd b (a.set * E + i)))
      hi (by simp [fill_block]) (by simp [fill_block, hw]) (by rw [heq])⟩
  · exact ⟨i, hi, Or.inr (Or.inr ⟨hno, hall, him, hfirst, by rw [heq]⟩), key i
      (evict_block a.is_load a.tag (order_bounds a.set E b).2 (rd b (a.set * E + i)))
      hi (by simp [evict_block]) (by simp [evict_block, hw]) (by rw [heq])⟩
  · exact absurd hmin.symm (hnm jm hjm)

theorem touched_line_gets_max_plus_one_witness :
    (rd (step 2 ([⟨1, 0, 7, 5⟩, ⟨1, 1, 8, 3⟩], init_stat) ⟨true, 8, 0⟩).1 (0 * 2 + 1)).order
      = (order_bounds 0 2 [⟨1, 0, 7, 5⟩, ⟨1, 1, 8, 3⟩]).2 + 1 := by
  obtain ⟨_, _, i0, hi0, _, _, h1, h2, _⟩ :=
    touched_line_gets_max_plus_one 1 2 [⟨1, 0, 7, 5⟩, ⟨1, 1, 8, 3⟩] init_stat ⟨true, 8, 0⟩
      (by decide) (by decide) (by decide) (by decide)
  have e : i0 = 1 := by
    by_contra hne
    have h3 := h2 (0 * 2 + 1) (by omega)
    revert h3
    decide
  subst e
  exact h1

/-- C18: in a state reached from the freshly initialised cache, an access that misses in
a full set overwrites the first line whose order is `min_order` (the victim).  If the
victim is dirty, `dirty_evictions` goes up by 1; a store then leaves `dirty_bytes` as it
is and the line dirty, a load takes 1 off `dirty_bytes` and leaves the line clean.  If
the victim is clean, `dirty_evictions` stays; a store then adds 1 to `dirty_bytes` and
leaves the line dirty, a load leaves `dirty_bytes` as it is and the line clean. -/
theorem eviction_dirty_bookkeeping (S E : Nat) (trace : List access) (a : access)
    (hE : 1 ≤ E) (hset : ∀ a' ∈ trace, a'.set < S) (ha : a.set < S)
    (hmiss : ∀ j, j < E →
      ¬ ((rd (replay E (init_state S E) trace).1 (a.set * E + j)).valid_bit = 1 ∧
        (rd (replay E (init_state S E) trace).1 (a.set * E + j)).tag = a.tag))
    (hfull : ∀ j, j < E →
      (rd (replay E (init_state S E) trace).1 (a.set * E + j)).valid_bit = 1) :
    ∃ i, i < E ∧
      (rd (replay E (init_state S E) trace).1 (a.set * E + i)).order =
        (order_bounds a.set E (replay E (init_state S E) trace).1).1 ∧
      (∀ j, j < i → (rd (replay E (init_state S E) trace).1 (a.set * E + j)).order ≠
        (order_bounds a.set E (replay E (init_state S E) trace).1).1) ∧
      (rd (step E (replay E (init_state S E) trace) a).1 (a.set * E + i)).tag = a.tag ∧
      ((rd (replay E (init_state S E) trace).1 (a.set * E + i)).dirty_bit = 0 ∨
        (rd (replay E (init_state S E) trace).1 (a.set * E + i)).dirty_bit = 1) ∧
      ((rd (replay E (init_state S E) trace).1 (a.set * E + i)).dirty_bit = 1 →
        (step E (replay E (init_state S E) trace) a).2.dirty_evictions =
          (replay E (init_state S E) trace).2.dirty_evictions + 1 ∧
        (a.is_load = false →
          (step E (replay E (init_state S E) trace) a).2.dirty_bytes =
            (replay E (init_state S E) trace).2.dirty_bytes ∧
          (rd (step E (replay E (init_state S E) trace) a).1 (a.set * E + i)).dirty_bit = 1) ∧
        (a.is_load = true →
          (step E (replay E (init_state S E) trace) a).2.dirty_bytes =
            (replay E (init_state S E) trace).2.dirty_bytes - 1 ∧
          (rd (step E (replay E (init_state S E) trace) a).1 (a.set * E + i)).dirty_bit = 0)) ∧
      ((rd (replay E (init_state S E) trace).1 (a.set * E + i)).dirty_bit = 0 →
        (step E (replay E (init_state S E) trace) a).2.dirty_evictions =
          (replay E (init_state S E) trace).2.dirty_evictions ∧
        (a.is_load = false →
          (step E (replay E (init_state S E) trace) a).2.dirty_bytes =
            (replay E (init_state S E) trace).2.dirty_bytes + 1 ∧
          (rd (step E (replay E (init_state S E) trace) a).1 (a.set * E + i)).dirty_bit = 1) ∧
        (a.is_load = true →
          (step E (replay E (init_state S E) trace) a).2.dirty_bytes =
            (replay E (init_state S E) trace).2.dirty_bytes ∧
          (rd (step E (replay E (init_state S E) trace) a).1 (a.set * E + i)).dirty_bit = 0)) := by
  have hinv : base_inv S E (replay E (init_state S E) trace) :=
    base_inv_replay trace _ (base_inv_init S E) hset
  generalize replay E (init_state S E) trace = c at hinv hmiss hfull
  obtain ⟨b, st⟩ := c
  simp only at hmiss hfull
  have hlen : b.length = S * E := hinv.len
  obtain ⟨_, ⟨jm, hjm, hmin⟩, _⟩ := order_bounds_spec a.set E b hE
  rcases step_cases E b st a with
    ⟨i, hi, hv, _, _⟩ | ⟨_, i, hi, hv0, _, _⟩ | ⟨_, _, i, hi, him, hfirst, heq⟩ |
    ⟨_, _, hnm, _⟩
  · exact absurd hv (hmiss i hi)
  · have := hfull i hi
    omega
  · have hidx : a.set * E + i < b.length := by rw [hlen]; exact index_lt ha hi
    have hb := (hinv.bits (a.set * E + i) (index_lt ha hi)).2.1
    simp only at hb
    refine ⟨i, hi, him, hfirst, ?_, hb, ?_, ?_⟩
    · rw [heq]; simp [rd_set, hidx, evict_block]
    · intro hd
      rw [heq]
      refine ⟨by simp [evict_stat, hd], ?_, ?_⟩
      · intro hl; simp [rd_set, hidx, evict_block, evict_stat, hd, hl]
      · intro hl; simp [rd_set, hidx, evict_block, evict_stat, hd, hl]
    · intro hd
      rw [heq]
      refine ⟨by simp [evict_stat, hd], ?_, ?_⟩
      · intro hl; simp [rd_set, hidx, evict_block, evict_stat, hd, hl]
      · intro hl; simp [rd_set, hidx, evict_block, evict_stat, hd, hl]
  · exact absurd hmin.symm (hnm jm hjm)

theorem eviction_dirty_bookkeeping_witness :
    (rd (step 1 (replay 1 (init_state 1 1) [⟨false, 5, 0⟩]) ⟨true, 6, 0⟩).1
      (0 * 1 + 0)).tag = 6 := by
  obtain ⟨i, hi, _, _, h, _⟩ :=
    eviction_dirty_bookkeeping 1 1 [⟨false, 5, 0⟩] ⟨true, 6, 0⟩ (by decide) (by decide)
      (by decide) (by decide) (by decide)
  have e : i = 0 := by omega
  subst e
  exact h

/-- C19: the stamps of a reachable state are not always as claimed.  After
`stamp_wrap_trace` (two lines, one set, `2 ^ 31` loads) a valid line carries an order
below 1, the stamp `max_order + 1` having left the range of `int`.  After `stamp_tie_trace`
(one load more, the last one of tag 0) both lines of the full set are valid with the same
order, which is `min_order`: the lowest-index tie-break decides the victim of the next
miss, and it is line 0, which holds tag 0, the most recently used one. -/
theorem stamps_collide_after_overflow :
    ((rd (replay 2 (init_state 1 2) stamp_wrap_trace).1 (0 * 2 + 0)).valid_bit = 1 ∧
      (rd (replay 2 (init_state 1 2) stamp_wrap_trace).1 (0 * 2 + 0)).order < 1) ∧
    ((rd (replay 2 (init_state 1 2) stamp_tie_trace).1 (0 * 2 + 0)).valid_bit = 1 ∧
      (rd (replay 2 (init_state 1 2) stamp_tie_trace).1 (0 * 2 + 1)).valid_bit = 1 ∧
      (rd (replay 2 (init_state 1 2) stamp_tie_trace).1 (0 * 2 + 0)).order =
        (order_bounds 0 2 (replay 2 (init_state 1 2) stamp_tie_trace).1).1 ∧
      (rd (replay 2 (init_state 1 2) stamp_tie_trace).1 (0 * 2 + 1)).order =
        (order_bounds 0 2 (replay 2 (init_state 1 2) stamp_tie_trace).1).1) ∧
    (stamp_tie_trace.getLast? = some ⟨true, 0, 0⟩ ∧
      (rd (replay 2 (init_state 1 2) stamp_tie_trace).1 (0 * 2 + 0)).tag = 0 ∧
      (step 2 (replay 2 (init_state 1 2) stamp_tie_trace) ⟨true, 2, 0⟩).1 =
        [⟨1, 0, 2, -2147483647⟩, ⟨1, 0, 1, -2147483648⟩]) := by
  have h3 : (step 2 (replay 2 (init_state 1 2) stamp_tie_trace) ⟨true, 2, 0⟩).1 =
      [⟨1, 0, 2, -2147483647⟩, ⟨1, 0, 1, -2147483648⟩] := by
    have ht := stamp_tie_state
    generalize replay 2 (init_state 1 2) stamp_tie_trace = c at ht
    obtain ⟨b, st⟩ := c
    simp only at ht
    subst ht
    exact tie_evicts st
  have h4 : stamp_tie_trace.getLast? = some ⟨true, 0, 0⟩ := by
    unfold stamp_tie_trace
    exact List.getLast?_concat _
  refine ⟨?_, ?_, h4, ?_, h3⟩
  · rw [stamp_wrap_state]
    decide
  · rw [stamp_tie_state]
    decide
  · rw [stamp_tie_state]
    decide

/-- C20: two traces with the same sequence of `(tag, set)` pairs, differing only in which
entries are loads and which are stores, replayed from the freshly initialised cache of
the same geometry, end with equal `hits`, `misses` and `evictions` and with equal
`valid_bit`, `tag` and `order` in every line. -/
theorem kind_affects_dirty_bookkeeping_only (S E : Nat) (tr tr' : List access)
    (h : tr.map (fun a => (a.tag, a.set)) = tr'.map (fun a => (a.tag, a.set))) :
    (replay E (init_state S E) tr).2.hits = (replay E (init_state S E) tr').2.hits ∧
    (replay E (init_state S E) tr).2.misses = (replay E (init_state S E) tr').2.misses ∧
    (replay E (init_state S E) tr).2.evictions = (replay E (init_state S E) tr').2.evictions ∧
    ∀ j, (rd (replay E (init_state S E) tr).1 j).valid_bit =
        (rd (replay E (init_state S E) tr').1 j).valid_bit ∧
      (rd (replay E (init_state S E) tr).1 j).tag =
        (rd (replay E (init_state S E) tr').1 j).tag ∧
      (rd (replay E (init_state S E) tr).1 j).order =
        (rd (replay E (init_state S E) tr').1 j).order := by
  have h0 : same_skeleton (init_state S E) (init_state S E) :=
    ⟨rfl, fun _ => rfl, fun _ => rfl, fun _ => rfl, rfl, rfl, rfl⟩
  have hs := same_skeleton_replay E tr tr' _ _ h0 h
  exact ⟨hs.hits, hs.misses, hs.evictions, fun j => ⟨hs.valid j, hs.tag j, hs.order j⟩⟩

theorem kind_affects_dirty_bookkeeping_only_witness :
    (replay 2 (init_state 2 2) [⟨true, 5, 1⟩, ⟨false, 6, 1⟩, ⟨true, 7, 1⟩]).2.evictions =
      (replay 2 (init_state 2 2) [⟨false, 5, 1⟩, ⟨false, 6, 1⟩, ⟨false, 7, 1⟩]).2.evictions :=
  (kind_affects_dirty_bookkeeping_only 2 2 [⟨true, 5, 1⟩, ⟨false, 6, 1⟩, ⟨true, 7, 1⟩]
    [⟨false, 5, 1⟩, ⟨false, 6, 1⟩, ⟨false, 7, 1⟩] (by decide)).2.2.1

end CacheSim
